import Mathlib

/-!
Verification of the SATERYS pipeline editor front-end
(`src/saterys/web/src/App.svelte`).

The Svelte component is shallowly embedded: its pure graph helpers
(`activeGraph`, `topoOrder`, `addEdge`, …) become Lean functions over the
same data, the stateful pipeline runner (`runPipeline`) becomes an explicit
fold over the execution order with the network executor abstracted as an
oracle, and the run-monitor polling loop (`pollLatestRun`) becomes a step
function on a poll state, driven by a list of fetch outcomes.

JavaScript numbers used as counters are embedded as `Int` (the in-degree
counters can go negative in the source via `(indeg.get(v) || 0) - 1`, so
`Nat` would be unfaithful).
-/

namespace Saterys

/-- A directed edge (`EdgeData` in App.svelte). -/
structure EdgeData where
  id : String
  source : String
  target : String
deriving Repr, DecidableEq

/-- A JSON value, the payloads stored in `lastOutputs` and sent as node
inputs.  String escaping is irrelevant to every claim, so `stringify`
below does not escape. -/
inductive JsonVal where
  | null : JsonVal
  | bool : Bool → JsonVal
  | num : Int → JsonVal
  | str : String → JsonVal
  | arr : List JsonVal → JsonVal
  | obj : List (String × JsonVal) → JsonVal

/-- A canvas node (`NodeData` in App.svelte).  `posx`/`posy`/`label` are
kept for fidelity with the source record; they never influence the helpers
verified here.  `args` is `Option` because the source reads `n.args ?? {}`. -/
structure NodeData where
  id : String
  posx : Int
  posy : Int
  label : String
  ntype : String
  args : Option JsonVal

/-- A UI log entry (`LogLine` in App.svelte). -/
structure LogLine where
  nodeId : String
  ok : Bool
  text : String
deriving Repr, DecidableEq

/-! ### `activeGraph` (App.svelte lines 137–144) -/

/-- `involved.has(id)` after the loop over `edges`: the id occurs as some
edge's source or target. -/
def involved (edges : List EdgeData) (x : String) : Bool :=
  edges.any (fun e => e.source = x || e.target = x)

/-- `activeGraph`: keep the nodes touched by at least one edge, then keep
the edges whose two endpoints are both kept. -/
def activeGraph (nodes : List NodeData) (edges : List EdgeData) :
    List NodeData × List EdgeData :=
  let activeNodes := nodes.filter (fun n => involved edges n.id)
  let set := activeNodes.map (·.id)
  let activeEdges := edges.filter (fun e => set.contains e.source && set.contains e.target)
  (activeNodes, activeEdges)

/-! ### `topoOrder` (App.svelte lines 146–169)

The JS `Map`s `adj` and `indeg` are embedded as functions `String → _`;
`Map.set` is a pointwise update.  The `while (q.length)` loop is run with
explicit fuel `ids.length + edgeList.length`; `topoLoop_final` below proves
that for duplicate-free node ids (the editor generates unique ids) this
fuel always drains the queue, so the embedding computes exactly what the
unbounded JS loop computes. -/

/-- The edges the loop body does not `continue` past: both endpoints are
listed node ids. -/
def filteredEdges (ids : List String) (edgeList : List EdgeData) : List EdgeData :=
  edgeList.filter (fun e => ids.contains e.source && ids.contains e.target)

/-- `adj.get(u)`: targets of the kept edges with source `u`, pushed in
edge-list order.  (For `u` outside `ids` no kept edge has source `u`, so
this is `[]`, matching the fact that such a `u` is never popped.) -/
def adjOf (es : List EdgeData) (u : String) : List String :=
  (es.filter (fun e => e.source = u)).map (·.target)

/-- `indeg.get(x) || 0` after the initialisation loops: the number of kept
edges targeting `x`. -/
def indeg0 (es : List EdgeData) (x : String) : Int :=
  (es.countP (fun e => e.target = x) : Int)

/-- The inner `for (const v of adj.get(u))` loop: decrement each successor,
enqueueing it the moment its in-degree reaches zero.  Returns the updated
in-degree map and queue. -/
def relax (indeg : String → Int) (q : List String) :
    List String → (String → Int) × List String
  | [] => (indeg, q)
  | v :: vs =>
    let d := indeg v - 1
    relax (fun x => if x = v then d else indeg x) (if d = 0 then q ++ [v] else q) vs

/-- The `while (q.length)` loop, with fuel.  Returns the final queue,
in-degree map and order; `topoOrder` projects out the order. -/
def topoLoop (adj : String → List String) :
    Nat → List String → (String → Int) → List String →
    List String × (String → Int) × List String
  | 0, q, indeg, order => (q, indeg, order)
  | _ + 1, [], indeg, order => ([], indeg, order)
  | fuel + 1, u :: qs, indeg, order =>
    let p := relax indeg qs (adj u)
    topoLoop adj fuel p.2 p.1 (order ++ [u])

/-- `topoOrder(nodeList, edgeList)`. -/
def topoOrder (nodeList : List NodeData) (edgeList : List EdgeData) : List String :=
  let ids := nodeList.map (·.id)
  let es := filteredEdges ids edgeList
  let q0 := ids.filter (fun id => indeg0 es id = 0)
  (topoLoop (adjOf es) (ids.length + edgeList.length) q0 (indeg0 es) []).2.2

/-- Node constructor used by concrete test graphs below. -/
def N (s : String) : NodeData :=
  { id := s, posx := 0, posy := 0, label := s, ntype := "hello", args := none }

/-- Edge constructor used by concrete test graphs below. -/
def E (i : Nat) (s t : String) : EdgeData :=
  { id := "e" ++ toString i, source := s, target := t }

/-! ### Graph editing operations (App.svelte lines 110–135, 256–266)

The component state relevant to the edge invariants: the node list, the
edge list and the two fresh-id counters.  After every mutation Svelte
re-runs the reactive pruning block (lines 110–115), embedded here as
`pruneEdges`; the `Reachable` relation below composes each operation with
it, exactly as the component does. -/

structure GraphState where
  nodes : List NodeData
  edges : List EdgeData
  nextNodeIndex : Nat
  nextEdgeId : Nat

/-- The reactive statement `$: { const ids = ...; edges = pruned }`:
drop every edge with a missing endpoint. -/
def pruneEdges (st : GraphState) : GraphState :=
  let ids := st.nodes.map (·.id)
  { st with edges := st.edges.filter (fun e => ids.contains e.source && ids.contains e.target) }

/-- `nodeById(id)`. -/
def nodeById (st : GraphState) (id : String) : Option NodeData :=
  st.nodes.find? (fun n => n.id == id)

/-- `addEdge(source, target)`. -/
def addEdge (st : GraphState) (source target : String) : GraphState :=
  if (nodeById st source).isNone || (nodeById st target).isNone || source == target then st
  else if st.edges.any (fun e => e.source == source && e.target == target) then st
  else { st with
         edges := st.edges ++ [{ id := "e" ++ toString st.nextEdgeId,
                                 source := source, target := target }],
         nextEdgeId := st.nextEdgeId + 1 }

/-- `deleteEdgeById(id)`. -/
def deleteEdgeById (st : GraphState) (id : String) : GraphState :=
  { st with edges := st.edges.filter (fun e => e.id != id) }

/-- `deleteNode(id)` (the overlay-layer/`argsText` cleanup touches no graph
state). -/
def deleteNode (st : GraphState) (id : String) : GraphState :=
  { st with nodes := st.nodes.filter (fun n => n.id != id) }

/-- `addNode()`.  `TYPES[0]` is external mutable state (it may be replaced
by a backend fetch), so the chosen type name and default args are
parameters. -/
def addNode (st : GraphState) (tname : String) (targs : JsonVal) : GraphState :=
  let id := "n" ++ toString st.nextNodeIndex
  let x : Int := 120 + (st.nodes.length % 6) * 260
  let y : Int := 140 + (st.nodes.length / 6) * 140
  { st with
    nodes := st.nodes ++ [{ id := id, posx := x, posy := y,
                            label := tname ++ " (" ++ id ++ ")",
                            ntype := tname, args := some targs }],
    nextNodeIndex := st.nextNodeIndex + 1 }

/-- The component's initial state: zero nodes, zero edges, counters at 1. -/
def initialState : GraphState :=
  { nodes := [], edges := [], nextNodeIndex := 1, nextEdgeId := 1 }

/-- States reachable from the initial state by the editing operations, each
followed by the reactive edge pruning. -/
inductive Reachable : GraphState → Prop
  | init : Reachable initialState
  | addNode {st} (tname : String) (targs : JsonVal) :
      Reachable st → Reachable (pruneEdges (addNode st tname targs))
  | addEdge {st} (s t : String) :
      Reachable st → Reachable (pruneEdges (addEdge st s t))
  | deleteEdgeById {st} (id : String) :
      Reachable st → Reachable (pruneEdges (deleteEdgeById st id))
  | deleteNode {st} (id : String) :
      Reachable st → Reachable (pruneEdges (deleteNode st id))

/-- The spec's edge invariants: no self-loop, and at most one edge per
ordered `(source, target)` pair. -/
def EdgesOK (edges : List EdgeData) : Prop :=
  (∀ e ∈ edges, e.source ≠ e.target) ∧
  (edges.map (fun e => (e.source, e.target))).Nodup

/-! ### Pipeline schedule creation (App.svelte lines 607–668) -/

inductive ScheduleMode where
  | once | interval | cron
deriving Repr, DecidableEq

/-- `PipeNode` of the schedule payload. -/
structure PipeNode where
  id : String
  ntype : String
  args : JsonVal

/-- `PipeEdge` of the schedule payload. -/
structure PipeEdge where
  source : String
  target : String
deriving Repr, DecidableEq

/-- `graphSnapshot()`: the active subgraph, projected to payload shape. -/
def graphSnapshot (nodes : List NodeData) (edges : List EdgeData) :
    List PipeNode × List PipeEdge :=
  let a := activeGraph nodes edges
  (a.1.map (fun n => { id := n.id, ntype := n.ntype, args := n.args.getD (.obj []) }),
   a.2.map (fun e => { source := e.source, target := e.target }))

/-- The `PipelineScheduleCreate` payload posted to `/pipeline/schedules`. -/
structure PipelineScheduleCreate where
  mode : ScheduleMode
  run_at : Option String
  seconds : Option Int
  minutes : Option Int
  hours : Option Int
  cron : Option String
  graph : List PipeNode × List PipeEdge

/-- Local outcome of `createPipelineSchedule()`: either a validation
rejection (`scheduleError` set, no network request issued) or a payload
handed to `fetch`. -/
inductive ScheduleOutcome where
  | rejected (scheduleError : String)
  | submitted (payload : PipelineScheduleCreate)

/-- `createPipelineSchedule()` up to the `fetch` call.  The `once`-mode
local→UTC date conversion is abstracted (the stored string is the raw
field value); no claim touches it.  For interval mode, on the `Int`
embedding of the numeric fields `Number(x) || 0` is the identity. -/
def createPipelineSchedule (nodes : List NodeData) (edges : List EdgeData)
    (mode : ScheduleMode) (localDateTime : String) (hours minutes seconds : Int)
    (cronText : String) : ScheduleOutcome :=
  let g := graphSnapshot nodes edges
  if g.1.length = 0 then .rejected "Nothing to schedule (empty graph)."
  else
    match mode with
    | .once =>
      if localDateTime = "" then .rejected "Please pick a date & time."
      else .submitted { mode := .once, run_at := some localDateTime,
                        seconds := none, minutes := none, hours := none,
                        cron := none, graph := g }
    | .interval =>
      if hours = 0 ∧ minutes = 0 ∧ seconds = 0 then .rejected "Interval must be > 0."
      else .submitted { mode := .interval, run_at := none,
                        seconds := some seconds, minutes := some minutes,
                        hours := some hours, cron := none, graph := g }
    | .cron =>
      if cronText.trim = "" then .rejected "Cron expression is required."
      else .submitted { mode := .cron, run_at := none,
                        seconds := none, minutes := none, hours := none,
                        cron := some cronText.trim, graph := g }

/-! ### Run-monitor polling (App.svelte lines 529–577)

`openJobLogs` polls once, then starts a 1-second `setInterval` whose ticks
call `pollLatestRun`.  A tick is therefore issued only while the interval
handle `runPollTimer` is non-null; the state below tracks that handle as a
`Bool` plus the `logs` array a tick overwrites.  What one tick observes on
the network is a `PollInput`. -/

/-- `RunDetail` as used by the poller (its `id`/timestamps are unused). -/
structure RunDetail where
  status : String
  logLines : List String
deriving Repr, DecidableEq

/-- One tick's network observation: the whole `try` block threw, the run
list was missing/empty, or the detail record of the newest run. -/
inductive PollInput where
  | failure
  | empty
  | latest (det : RunDetail)
deriving Repr, DecidableEq

structure PollState where
  timerActive : Bool
  logs : List LogLine
deriving Repr, DecidableEq

/-- Substring test on the character lists (the JS regex `.test`). -/
def listContainsSub (needle : List Char) : List Char → Bool
  | [] => needle.isEmpty
  | c :: t => needle.isPrefixOf (c :: t) || listContainsSub needle t

/-- `!/❌|exception/i.test(line)` — the per-line `ok` flag. -/
def lineOk (line : String) : Bool :=
  !(listContainsSub "❌".data line.data ||
    listContainsSub "exception".data (line.data.map Char.toLower))

/-- The `nodeId` tag chosen for a fetched log line. -/
def statusTag (status : String) : String :=
  if status = "running" then "run" else if status = "success" then "ok" else "err"

/-- One call of `pollLatestRun(jobId)` in state `s`, observing `inp`. -/
def pollTick (s : PollState) (inp : PollInput) : PollState :=
  match inp with
  | .failure => { s with logs := [{ nodeId := "system", ok := false, text := "Failed to fetch run logs" }] }
  | .empty => { s with logs := [{ nodeId := "system", ok := true, text := "(no runs yet)" }] }
  | .latest det =>
    { timerActive := if det.status ≠ "running" ∧ s.timerActive then false else s.timerActive,
      logs := det.logLines.map (fun line =>
        { nodeId := statusTag det.status, ok := lineOk line, text := line }) }

/-- A run of successive ticks. -/
def pollTrace (s : PollState) (inps : List PollInput) : PollState :=
  inps.foldl pollTick s

/-! ### The pipeline runner (App.svelte lines 171–254)

`runNode` posts `{nodeId, type, args, inputs}` and parses the reply; the
network and the executor are abstracted as an oracle `Exec` mapping those
four fields to what the `await` of `runNode` produces: either a thrown
exception (caught by the loop's `catch`) or a response record.  The
response's `logs`/`stdout` arrays are embedded as the already-stringified
log lines they contribute.  `RunState.calls` records each `runNode`
invocation `(nodeId, inputs)` — the observable request stream. -/

/-- What `await runNode(n, inputs)` yields. -/
inductive ExecResult where
  | exception (msg : String)
  | response (ok : Bool) (output : Option JsonVal) (error : Option String)
             (rlogs : List String) (stdout : List String)

/-- The executor oracle. -/
abbrev Exec := String → String → JsonVal → List (String × JsonVal) → ExecResult

/-- `JSON.stringify` (escaping omitted; no claim depends on the text). -/
def JsonVal.stringify : JsonVal → String
  | .null => "null"
  | .bool b => if b then "true" else "false"
  | .num n => toString n
  | .str s => "\"" ++ s ++ "\""
  | .arr xs => "[" ++ String.intercalate "," (xs.attach.map (fun x => x.1.stringify)) ++ "]"
  | .obj fs => "\x7b" ++ String.intercalate ","
      (fs.attach.map (fun f => "\"" ++ f.1.1 ++ "\":" ++ stringify f.1.2)) ++ "\x7d"
decreasing_by
  · have := List.sizeOf_lt_of_mem x.2
    simp
    omega
  · have h1 := List.sizeOf_lt_of_mem f.2
    obtain ⟨⟨k, v⟩, hmem⟩ := f
    simp at h1 ⊢
    omega

/-- JS `String(x)` as used by template interpolation. -/
def templateToString : JsonVal → String
  | .str s => s
  | .num n => toString n
  | .bool b => if b then "true" else "false"
  | .null => "null"
  | .arr xs => String.intercalate "," (xs.attach.map (fun x => templateToString x.1))
  | .obj _ => "[object Object]"
decreasing_by
  have := List.sizeOf_lt_of_mem x.2
  simp
  omega

/-- `data.output ?? {}` (JSON `null` decodes to JS `null`, which `??`
also replaces). -/
def jsOutput : Option JsonVal → JsonVal
  | none => .obj []
  | some .null => .obj []
  | some v => v

/-- `typeof out === 'string' ? out : (out.text ?? JSON.stringify(out))`. -/
def successText (out : JsonVal) : String :=
  match out with
  | .str s => s
  | .obj fs =>
    match fs.lookup "text" with
    | some .null => JsonVal.stringify out
    | some v => templateToString v
    | none => JsonVal.stringify out
  | v => JsonVal.stringify v

/-- `data?.error || 'Unknown error'` (for a string-or-absent `error`). -/
def errText : Option String → String
  | none => "Unknown error"
  | some e => if e = "" then "Unknown error" else e

/-- Insertion-ordered JS-object update `lastOutputs[id] = out`. -/
def setAssoc (m : List (String × JsonVal)) (k : String) (v : JsonVal) :
    List (String × JsonVal) :=
  if m.any (fun p => p.1 == k) then m.map (fun p => if p.1 == k then (k, v) else p)
  else m ++ [(k, v)]

/-- `upstreamOf[id]` built from the active edges: sources of edges
targeting `id`, in edge order. -/
def upstreamOf (es : List EdgeData) (id : String) : List String :=
  (es.filter (fun e => e.target = id)).map (·.source)

/-- `inputs[up] = lastOutputs[up]` over `upstreamOf[id]`.  A predecessor
with no stored output contributes `undefined`, which `JSON.stringify`
drops from the posted body, so the delivered inputs carry exactly the
predecessors that have an entry. -/
def buildInputs (upstream : List String) (outs : List (String × JsonVal)) :
    List (String × JsonVal) :=
  upstream.filterMap (fun up => (outs.lookup up).map (fun v => (up, v)))

/-- The runner's mutable state: the log sink, `lastOutputs`, and the
stream of issued `runNode` calls. -/
structure RunState where
  logs : List LogLine
  lastOutputs : List (String × JsonVal)
  calls : List (String × List (String × JsonVal))

/-- The body of `for (const id of order) { ... }`. -/
def runNodeStep (exec : Exec) (nodes : List NodeData) (ups : String → List String)
    (st : RunState) (id : String) : RunState :=
  -- `const n = nodeById(id)!`: `id` comes from the order over the active
  -- nodes, so the lookup succeeds; the fallback keeps the embedding total.
  let n := (nodes.find? (fun n => n.id == id)).getD (N id)
  let inputs := buildInputs (ups id) st.lastOutputs
  let st1 : RunState :=
    { st with logs := st.logs ++ [⟨id, true, "▶ Running…"⟩],
              calls := st.calls ++ [(id, inputs)] }
  match exec id n.ntype (n.args.getD (.obj [])) inputs with
  | .exception msg =>
    { st1 with logs := st1.logs ++ [⟨id, false, "❌ Exception: " ++ msg⟩] }
  | .response ok output error rlogs stdout =>
    let st2 : RunState :=
      { st1 with logs := st1.logs ++ rlogs.map (fun l => ⟨id, true, l⟩)
                                  ++ stdout.map (fun l => ⟨id, true, l⟩) }
    if ok then
      let out := jsOutput output
      { st2 with lastOutputs := setAssoc st2.lastOutputs id out,
                 logs := st2.logs ++ [⟨id, true, "✅ " ++ successText out⟩] }
    else
      { st2 with logs := st2.logs ++ [⟨id, false, "❌ " ++ errText error⟩] }

/-- The warning line pushed when the order misses some active node. -/
def cycleWarning : LogLine :=
  ⟨"system", false, "Warning: cycle detected; running partial order."⟩

/-- `runPipeline()` (the `running`/`showLogs` UI flags are not modelled). -/
def runPipeline (nodes : List NodeData) (edges : List EdgeData) (exec : Exec) :
    RunState :=
  let a := activeGraph nodes edges
  if a.1.length = 0 then
    { logs := [⟨"system", false, "No connected nodes to run."⟩],
      lastOutputs := [], calls := [] }
  else
    let order := topoOrder a.1 a.2
    let warn : List LogLine :=
      if order.length ≠ a.1.length then [cycleWarning] else []
    order.foldl (runNodeStep exec nodes (upstreamOf a.2))
      { logs := warn, lastOutputs := [], calls := [] }

/-- Ids of the active nodes. -/
def activeIds (nodes : List NodeData) (edges : List EdgeData) : List String :=
  (activeGraph nodes edges).1.map NodeData.id

/-- The kept edges of the active subgraph, as `topoOrder` sees them. -/
def activeKept (nodes : List NodeData) (edges : List EdgeData) : List EdgeData :=
  filteredEdges (activeIds nodes edges) (activeGraph nodes edges).2

/-- The execution order `runPipeline` computes. -/
def activeOrder (nodes : List NodeData) (edges : List EdgeData) : List String :=
  topoOrder (activeGraph nodes edges).1 (activeGraph nodes edges).2

/-- The failure branches of the node loop: a thrown exception or a
non-`ok` response. -/
def ExecResult.failed : ExecResult → Prop
  | .exception _ => True
  | .response ok _ _ _ _ => ok = false

/-- The text of the failure log line pushed for a failed result. -/
def failureLine : ExecResult → String
  | .exception msg => "❌ Exception: " ++ msg
  | .response _ _ error _ _ => "❌ " ++ errText error

/-! ### Kahn-loop analysis -/

/-- Count of kept edges into `x` whose source has not yet been appended to
`order` — the value the loop maintains in `indeg`. -/
def countIn (es : List EdgeData) (order : List String) (x : String) : Int :=
  (es.countP (fun e => e.target = x && !(order.contains e.source)) : Int)

/-- One kept edge from `a` to `b`. -/
def EStep (es : List EdgeData) (a b : String) : Prop :=
  ∃ e ∈ es, e.source = a ∧ e.target = b

/-- The `topoLoop` invariant relating queue, in-degree map and emitted
order. -/
structure KahnInv (ids : List String) (es : List EdgeData)
    (q : List String) (indeg : String → Int) (order : List String) : Prop where
  q_sub : ∀ x ∈ q, x ∈ ids
  order_sub : ∀ x ∈ order, x ∈ ids
  nodup : (order ++ q).Nodup
  indeg_eq : ∀ x, indeg x = countIn es order x
  queue_iff : ∀ x ∈ ids, x ∉ order → (x ∈ q ↔ indeg x = 0)
  sorted : ∀ e ∈ es, ∀ j, (hj : j < order.length) → order[j] = e.target →
      e.source ∈ order.take j

/-! ### Reference Kahn scheduler, written from the spec's algorithm text

"Compute in-degree per node restricted to edges whose endpoints are both
in `nodes`; seed a FIFO queue with all zero-in-degree nodes in the order
they appear in `nodes`; repeatedly pop the front, append to the result,
decrement in-degree of its successors (iterated in edge-list order), and
enqueue any successor whose in-degree reaches zero."  The in-degree map is
an association table keyed by node id; the fuel is the same bound proved
sufficient for `topoLoop`. -/

/-- In-degree per node, restricted to the kept edges. -/
def refIndegTable (ids : List String) (es : List EdgeData) : List (String × Int) :=
  ids.map (fun id => (id, (es.countP (fun e => e.target = id) : Int)))

/-- Table lookup, zero for an unlisted node. -/
def refLookup (t : List (String × Int)) (x : String) : Int :=
  (t.lookup x).getD 0

/-- Decrement a node's table entry. -/
def refDec (t : List (String × Int)) (x : String) : List (String × Int) :=
  t.map (fun p => if p.1 == x then (p.1, p.2 - 1) else p)

/-- Successors of `u`, iterated in edge-list order. -/
def refSucc (es : List EdgeData) (u : String) : List String :=
  (es.filter (fun e => e.source = u)).map (·.target)

/-- Decrement each successor, enqueueing it when its in-degree reaches
zero. -/
def refRelax (t : List (String × Int)) (q : List String) :
    List String → List (String × Int) × List String
  | [] => (t, q)
  | v :: vs =>
    let t2 := refDec t v
    refRelax t2 (if refLookup t2 v = 0 then q ++ [v] else q) vs

/-- Pop the front, append it to the result, relax its successors. -/
def refLoop (es : List EdgeData) :
    Nat → List String → List (String × Int) → List String → List String
  | 0, _, _, order => order
  | _ + 1, [], _, order => order
  | fuel + 1, u :: qs, t, order =>
    let p := refRelax t qs (refSucc es u)
    refLoop es fuel p.2 p.1 (order ++ [u])

/-- The reference scheduler. -/
def kahnReference (nodeList : List NodeData) (edgeList : List EdgeData) : List String :=
  let ids := nodeList.map (·.id)
  let es := filteredEdges ids edgeList
  let t := refIndegTable ids es
  let q0 := ids.filter (fun id => refLookup t id = 0)
  refLoop es (ids.length + edgeList.length) q0 t []

/-! ## Claims -/

/-- A graph state is well formed when every edge endpoint is a listed node
id — the invariant the component's reactive pruning block re-establishes
after every mutation. -/
def WellFormed (nodes : List NodeData) (edges : List EdgeData) : Prop :=
  ∀ e ∈ edges, e.source ∈ nodes.map NodeData.id ∧ e.target ∈ nodes.map NodeData.id

theorem involved_of_endpoint {edges : List EdgeData} {e : EdgeData} (he : e ∈ edges)
    {x : String} (hx : e.source = x ∨ e.target = x) : involved edges x = true := by
  unfold involved
  rw [List.any_eq_true]
  exact ⟨e, he, by simpa using hx⟩

theorem mem_activeSet_of_endpoint {nodes : List NodeData} {edges : List EdgeData}
    {e : EdgeData} (he : e ∈ edges) {x : String}
    (hx : e.source = x ∨ e.target = x) (hn : x ∈ nodes.map NodeData.id) :
    x ∈ (nodes.filter (fun n => involved edges n.id)).map NodeData.id := by
  rw [List.mem_map] at hn ⊢
  obtain ⟨n, hn, rfl⟩ := hn
  exact ⟨n, List.mem_filter.mpr ⟨hn, involved_of_endpoint he hx⟩, rfl⟩

/-- On a well-formed graph, `activeGraph` keeps every edge. -/
theorem activeGraph_wf_eq (nodes : List NodeData) (edges : List EdgeData)
    (hwf : WellFormed nodes edges) :
    activeGraph nodes edges = (nodes.filter (fun n => involved edges n.id), edges) := by
  unfold activeGraph
  simp only [Prod.mk.injEq]
  refine ⟨trivial, List.filter_eq_self.mpr ?_⟩
  intro e he
  have hs := mem_activeSet_of_endpoint he (Or.inl rfl) (hwf e he).1
  have ht := mem_activeSet_of_endpoint he (Or.inr rfl) (hwf e he).2
  rw [Bool.and_eq_true]
  exact ⟨List.elem_eq_true_of_mem hs, List.elem_eq_true_of_mem ht⟩

/-- **C5.**  On a well-formed graph (every edge endpoint is a listed node,
the invariant the reactive pruning maintains), every node kept by
`activeGraph` has an incident edge in the result, and `activeGraph` is
idempotent: re-applying it to its own output changes nothing. -/
theorem C5_activeGraph_incident_and_idempotent (nodes : List NodeData)
    (edges : List EdgeData) (hwf : WellFormed nodes edges) :
    (∀ n ∈ (activeGraph nodes edges).1, ∃ e ∈ (activeGraph nodes edges).2,
        e.source = n.id ∨ e.target = n.id) ∧
    activeGraph (activeGraph nodes edges).1 (activeGraph nodes edges).2 =
      activeGraph nodes edges := by
  have heq := activeGraph_wf_eq nodes edges hwf
  constructor
  · intro n hn
    rw [heq] at hn ⊢
    have h2 := (List.mem_filter.mp hn).2
    unfold involved at h2
    rw [List.any_eq_true] at h2
    obtain ⟨e, he, hcond⟩ := h2
    refine ⟨e, he, ?_⟩
    simpa using hcond
  · have hwf' : WellFormed (nodes.filter (fun n => involved edges n.id)) edges := by
      intro e he
      exact ⟨mem_activeSet_of_endpoint he (Or.inl rfl) (hwf e he).1,
             mem_activeSet_of_endpoint he (Or.inr rfl) (hwf e he).2⟩
    rw [heq, activeGraph_wf_eq _ _ hwf']
    rw [Prod.mk.injEq]
    refine ⟨?_, rfl⟩
    rw [List.filter_filter]
    simp

/-- Witness for C5 on the spec's own example graph `A→B→C` plus
orphan `D`. -/
theorem C5_activeGraph_incident_and_idempotent_witness :
    activeGraph (activeGraph [N "A", N "B", N "C", N "D"] [E 1 "A" "B", E 2 "B" "C"]).1
        (activeGraph [N "A", N "B", N "C", N "D"] [E 1 "A" "B", E 2 "B" "C"]).2 =
      activeGraph [N "A", N "B", N "C", N "D"] [E 1 "A" "B", E 2 "B" "C"] :=
  (C5_activeGraph_incident_and_idempotent [N "A", N "B", N "C", N "D"]
    [E 1 "A" "B", E 2 "B" "C"] (by unfold WellFormed; decide)).2

theorem edgesOK_filter (l : List EdgeData) (p : EdgeData → Bool) (h : EdgesOK l) :
    EdgesOK (l.filter p) := by
  refine ⟨fun e he => h.1 e (List.mem_of_mem_filter he), ?_⟩
  exact h.2.sublist (List.Sublist.map _ (List.filter_sublist l))

theorem pruneEdges_edgesOK {st : GraphState} (h : EdgesOK st.edges) :
    EdgesOK (pruneEdges st).edges :=
  edgesOK_filter _ _ h

theorem addEdge_edgesOK (st : GraphState) (s t : String) (h : EdgesOK st.edges) :
    EdgesOK (addEdge st s t).edges := by
  unfold addEdge
  split
  · exact h
  · split
    · exact h
    · rename_i hc1 hc2
      rw [Bool.not_eq_true, Bool.or_eq_false_iff, Bool.or_eq_false_iff] at hc1
      have hst : s ≠ t := by
        intro hst
        rw [hst] at hc1
        simp at hc1
      rw [List.any_eq_true] at hc2
      push_neg at hc2
      constructor
      · intro e he
        rcases List.mem_append.mp he with h' | h'
        · exact h.1 e h'
        · rw [List.mem_singleton] at h'
          subst h'
          exact hst
      · rw [List.map_append, List.nodup_append]
        refine ⟨h.2, List.nodup_singleton _, ?_⟩
        intro p hp hq
        rw [List.mem_map] at hp
        obtain ⟨e, he, rfl⟩ := hp
        rw [List.map_singleton, List.mem_singleton, Prod.mk.injEq] at hq
        exact hc2 e he (by simp [hq.1, hq.2])

/-- Every state the editor can reach satisfies the edge invariants. -/
theorem reachable_edgesOK {st : GraphState} (h : Reachable st) : EdgesOK st.edges := by
  induction h with
  | init => exact ⟨fun e he => absurd he (List.not_mem_nil e), List.nodup_nil⟩
  | addNode tname targs _ ih => exact pruneEdges_edgesOK ih
  | addEdge s t _ ih => exact pruneEdges_edgesOK (addEdge_edgesOK _ s t ih)
  | deleteEdgeById id _ ih => exact pruneEdges_edgesOK (edgesOK_filter _ _ ih)
  | deleteNode id _ ih => exact pruneEdges_edgesOK ih

/-- Pairwise-distinct ordered pairs bound the count of any one pair by 1. -/
theorem countP_pair_le_one_of_nodup (l : List EdgeData) (A B : String)
    (h : (l.map (fun e => (e.source, e.target))).Nodup) :
    l.countP (fun e => e.source == A && e.target == B) ≤ 1 := by
  induction l with
  | nil => simp
  | cons e t ih =>
    rw [List.map_cons, List.nodup_cons] at h
    rw [List.countP_cons]
    by_cases hp : (e.source == A && e.target == B) = true
    · have hAB : e.source = A ∧ e.target = B := by simpa using hp
      have ht0 : t.countP (fun e => e.source == A && e.target == B) = 0 := by
        rw [List.countP_eq_zero]
        intro e' he' hp'
        have hAB' : e'.source = A ∧ e'.target = B := by simpa using hp'
        apply h.1
        rw [List.mem_map]
        exact ⟨e', he', by rw [hAB'.1, hAB'.2, hAB.1, hAB.2]⟩
      simp [hp, ht0]
    · rw [Bool.not_eq_true] at hp
      rw [hp]
      simpa using ih h.2

theorem addEdge_noop (st : GraphState) (s t : String)
    (h : (nodeById st s).isNone = true ∨ (nodeById st t).isNone = true ∨ s = t ∨
        st.edges.any (fun e => e.source == s && e.target == t) = true) :
    addEdge st s t = st := by
  unfold addEdge
  rcases h with h | h | h | h
  · simp [h]
  · simp [h]
  · simp [h]
  · split
    · rfl
    · simp [h]

/-- **C6.**  (i) Every reachable editor state has only non-self-loop edges
with pairwise distinct ordered `(source, target)` pairs; (ii) `addEdge`
with a missing endpoint, a self-loop, or an already-present ordered pair
leaves the state unchanged; (iii) from a reachable state with both
endpoints present and distinct, adding `(A,B)` twice leaves exactly one
`A→B` edge. -/
theorem C6_edge_uniqueness :
    (∀ st, Reachable st → EdgesOK st.edges) ∧
    (∀ st s t, ((nodeById st s).isNone = true ∨ (nodeById st t).isNone = true ∨ s = t ∨
        st.edges.any (fun e => e.source == s && e.target == t) = true) →
        addEdge st s t = st) ∧
    (∀ st A B, Reachable st → (nodeById st A).isSome = true →
        (nodeById st B).isSome = true → A ≠ B →
        ((addEdge (addEdge st A B) A B).edges.countP
          (fun e => e.source == A && e.target == B)) = 1) := by
  refine ⟨fun st h => reachable_edgesOK h, fun st s t h => addEdge_noop st s t h, ?_⟩
  intro st A B hre hA hB hAB
  have hOK : EdgesOK st.edges := reachable_edgesOK hre
  by_cases hdup : st.edges.any (fun e => e.source == A && e.target == B) = true
  · -- the pair already exists: both calls are no-ops, and the invariant
    -- bounds the count by one while `any` bounds it below.
    have h1 : addEdge st A B = st := addEdge_noop st A B (Or.inr (Or.inr (Or.inr hdup)))
    rw [h1, h1]
    have hpos : 0 < st.edges.countP (fun e => e.source == A && e.target == B) := by
      rw [List.any_eq_true] at hdup
      obtain ⟨e, he, hp⟩ := hdup
      exact List.countP_pos_iff.mpr ⟨e, he, hp⟩
    have hle := countP_pair_le_one_of_nodup st.edges A B hOK.2
    omega
  · -- the pair is new: the first call appends it, the second is a no-op.
    have hnone : st.edges.countP (fun e => e.source == A && e.target == B) = 0 := by
      rw [List.countP_eq_zero]
      intro e he
      intro hp
      exact hdup (List.any_eq_true.mpr ⟨e, he, hp⟩)
    have hnotnoop : addEdge st A B =
        { st with edges := st.edges ++ [{ id := "e" ++ toString st.nextEdgeId,
                                          source := A, target := B }],
                  nextEdgeId := st.nextEdgeId + 1 } := by
      unfold addEdge
      rw [if_neg, if_neg]
      · exact hdup
      · rw [Bool.not_eq_true, Bool.or_eq_false_iff, Bool.or_eq_false_iff]
        refine ⟨⟨?_, ?_⟩, ?_⟩
        · rw [Bool.not_eq_true] at *
          cases hh : (nodeById st A).isNone
          · rfl
          · rw [Option.isNone_iff_eq_none] at hh
            rw [hh] at hA
            cases hA
        · cases hh : (nodeById st B).isNone
          · rfl
          · rw [Option.isNone_iff_eq_none] at hh
            rw [hh] at hB
            cases hB
        · exact beq_eq_false_iff_ne.mpr hAB
    have hsecond : addEdge (addEdge st A B) A B = addEdge st A B := by
      apply addEdge_noop
      refine Or.inr (Or.inr (Or.inr ?_))
      rw [hnotnoop]
      rw [List.any_eq_true]
      refine ⟨{ id := "e" ++ toString st.nextEdgeId, source := A, target := B }, ?_, ?_⟩
      · simp
      · simp
    rw [hsecond, hnotnoop]
    simp only [List.countP_append, hnone]
    simp

/-- Witness for C6: after two `addEdge("A","B")` calls from a reachable
two-node state, exactly one `A→B` edge exists. -/
theorem C6_edge_uniqueness_witness :
    ((addEdge (addEdge (pruneEdges (deleteNode
        (pruneEdges (addNode (pruneEdges (addNode initialState "hello" (.obj [])))
          "hello" (.obj []))) "nZ")) "n1" "n2") "n1" "n2").edges.countP
      (fun e => e.source == "n1" && e.target == "n2")) = 1 :=
  C6_edge_uniqueness.2.2 _ "n1" "n2"
    (Reachable.deleteNode "nZ" (Reachable.addNode "hello" (.obj [])
      (Reachable.addNode "hello" (.obj []) Reachable.init)))
    (by decide) (by decide) (by decide)

/-- **C7 (counterexample).**  The interval-mode validation is JS truthiness
(`!(payload.hours || payload.minutes || payload.seconds)`), not positivity:
with `hours = -1, minutes = 0, seconds = 0` no field is positive, yet on a
nonempty graph the request is submitted to the network layer (the number
inputs' `min="0"` is advisory only and nothing clamps the bound value),
contradicting the claim that a request is accepted locally only if at least
one of the fields is a positive number. -/
theorem C7_negative_interval_counterexample :
    (∃ p, createPipelineSchedule [N "a", N "b"] [E 1 "a" "b"] .interval "" (-1) 0 0 "" =
        .submitted p) ∧
      ¬(0 < (-1 : Int) ∨ 0 < (0 : Int) ∨ 0 < (0 : Int)) :=
  ⟨⟨_, rfl⟩, by decide⟩

/-- **C7 (amended).**  For every schedule-creation request in Interval mode,
the request is accepted locally iff the active graph is nonempty and at
least one of hours, minutes, seconds is nonzero (the code coerces each
field with `Number(x) || 0` and then tests truthiness, `!(h || m || s)`);
in particular, when hours, minutes and seconds are all zero the creation
fails locally with a validation message (`rejected` means `scheduleError`
is set and no network request is issued). -/
theorem C7_interval_nonzero_required (nodes : List NodeData) (edges : List EdgeData)
    (localDT cronText : String) (h m s : Int) :
    ((∃ p, createPipelineSchedule nodes edges .interval localDT h m s cronText =
        .submitted p) ↔
      ((graphSnapshot nodes edges).1.length ≠ 0 ∧ ¬(h = 0 ∧ m = 0 ∧ s = 0))) ∧
    (h = 0 → m = 0 → s = 0 →
      createPipelineSchedule nodes edges .interval localDT h m s cronText =
          .rejected "Nothing to schedule (empty graph)." ∨
        createPipelineSchedule nodes edges .interval localDT h m s cronText =
          .rejected "Interval must be > 0.") := by
  unfold createPipelineSchedule
  constructor
  · constructor
    · rintro ⟨p, hp⟩
      by_cases hg : (graphSnapshot nodes edges).1.length = 0
      · simp [hg] at hp
      · refine ⟨hg, fun hz => ?_⟩
        simp [hg, hz.1, hz.2.1, hz.2.2] at hp
    · rintro ⟨hg, hz⟩
      refine ⟨{ mode := .interval, run_at := none, seconds := some s,
                minutes := some m, hours := some h, cron := none,
                graph := graphSnapshot nodes edges }, ?_⟩
      simp [hg, hz]
  · intro h0 m0 s0
    by_cases hg : (graphSnapshot nodes edges).1.length = 0
    · left; simp [hg]
    · right; simp [hg, h0, m0, s0]

/-- Witness for C7 (amended) at the all-zero interval on a nonempty active
graph. -/
theorem C7_interval_nonzero_required_witness :
    createPipelineSchedule [N "a", N "b"] [E 1 "a" "b"] .interval "" 0 0 0 "" =
        .rejected "Nothing to schedule (empty graph)." ∨
      createPipelineSchedule [N "a", N "b"] [E 1 "a" "b"] .interval "" 0 0 0 "" =
        .rejected "Interval must be > 0." :=
  (C7_interval_nonzero_required [N "a", N "b"] [E 1 "a" "b"] "" "" 0 0 0).2 rfl rfl rfl

/-- **C8.**  Once a poll tick fetches a latest run whose status is not
`running`, the interval handle is cleared, so no further tick is issued
(`timerActive = false` means `runPollTimer` is null and `setInterval`
fires nothing); a cleared handle stays cleared across any further
observations, and clearing happens on no other observation — the sole
automatic stop condition is a fetched terminal status. -/
theorem C8_terminal_status_stops_polling :
    (∀ (s : PollState) (det : RunDetail), det.status ≠ "running" →
        (pollTick s (.latest det)).timerActive = false) ∧
    (∀ (s : PollState) (inps : List PollInput), s.timerActive = false →
        (pollTrace s inps).timerActive = false) ∧
    (∀ (s : PollState) (inp : PollInput), s.timerActive = true →
        (pollTick s inp).timerActive = false →
        ∃ det, inp = .latest det ∧ det.status ≠ "running") := by
  refine ⟨?_, ?_, ?_⟩
  · intro s det hterm
    by_cases hta : s.timerActive <;> simp [pollTick, hterm, hta]
  · intro s inps
    induction inps generalizing s with
    | nil => intro hs; simpa [pollTrace] using hs
    | cons i t ih =>
      intro hs
      have hstep : (pollTick s i).timerActive = false := by
        cases i with
        | failure => simpa [pollTick] using hs
        | empty => simpa [pollTick] using hs
        | latest det => simp [pollTick, hs]
      simpa [pollTrace] using ih (pollTick s i) hstep
  · intro s inp hs hoff
    cases inp with
    | failure => rw [pollTick] at hoff; rw [hs] at hoff; cases hoff
    | empty => rw [pollTick] at hoff; rw [hs] at hoff; cases hoff
    | latest det =>
      refine ⟨det, rfl, ?_⟩
      intro hrun
      simp [pollTick, hrun, hs] at hoff

/-- Witness for C8: a tick observing `status = "success"` clears the
timer. -/
theorem C8_terminal_status_stops_polling_witness :
    (pollTick { timerActive := true, logs := [] }
        (.latest { status := "success", logLines := [] })).timerActive = false :=
  C8_terminal_status_stops_polling.1 { timerActive := true, logs := [] }
    { status := "success", logLines := [] } (by decide)

/-- **C9 (counterexample).**  A poll tick that fetches an empty run list
displays the single placeholder line but does *not* stop: the interval
handle stays set, so further ticks are issued, contradicting the claim
that an empty run list is a stop condition. -/
theorem C9_empty_list_counterexample :
    (pollTick { timerActive := true, logs := [] } .empty).logs =
        [{ nodeId := "system", ok := true, text := "(no runs yet)" }] ∧
      (pollTick { timerActive := true, logs := [] } .empty).timerActive = true :=
  ⟨rfl, rfl⟩

/-- **C9 (amended).**  When a poll tick fetches an empty run list, the Run
Monitor replaces the log pane with the single placeholder line and returns
without error for that tick, leaving the poll timer exactly as it was —
polling continues until a terminal status is observed or the watch is torn
down. -/
theorem C9_empty_list_placeholder (s : PollState) :
    (pollTick s .empty).logs =
        [{ nodeId := "system", ok := true, text := "(no runs yet)" }] ∧
      (pollTick s .empty).timerActive = s.timerActive :=
  ⟨rfl, rfl⟩

/-! ### `relax`: the inner successor loop -/

theorem relax_fst (vs : List String) (indeg : String → Int) (q : List String) (x : String) :
    (relax indeg q vs).1 x = indeg x - vs.count x := by
  induction vs generalizing indeg q with
  | nil => simp [relax]
  | cons v vs ih =>
    simp only [relax]
    rw [ih]
    by_cases hx : x = v
    · subst hx
      simp only [if_pos rfl, List.count_cons_self]
      push_cast
      ring
    · simp only [if_neg hx, List.count_cons]
      have hbne : (v == x) = false := by
        rw [beq_eq_false_iff_ne]
        exact fun h => hx h.symm
      simp [hbne]

theorem relax_snd_count (vs : List String) (indeg : String → Int) (q : List String)
    (hnn : ∀ v, 0 ≤ indeg v) (hub : ∀ v, (vs.count v : Int) ≤ indeg v) (x : String) :
    (relax indeg q vs).2.count x =
      q.count x + (if 1 ≤ indeg x ∧ (vs.count x : Int) = indeg x then 1 else 0) := by
  induction vs generalizing indeg q with
  | nil =>
    have hno : ¬(1 ≤ indeg x ∧ ((List.count x ([] : List String) : Nat) : Int) = indeg x) := by
      rintro ⟨h1, h2⟩
      simp at h2
      omega
    rw [if_neg hno]
    simp [relax]
  | cons v vs ih =>
    simp only [relax]
    have hcv : (List.count v (v :: vs) : Int) = (vs.count v : Int) + 1 := by
      rw [List.count_cons_self]
      push_cast
      ring
    have hdnn : 0 ≤ indeg v - 1 := by
      have h1 := hub v
      have h2 : (0 : Int) ≤ (vs.count v : Int) := Int.ofNat_nonneg _
      omega
    have hnn1 : ∀ w, 0 ≤ (fun y => if y = v then indeg v - 1 else indeg y) w := by
      intro w
      by_cases hw : w = v
      · simpa [hw] using hdnn
      · simpa [hw] using hnn w
    have hub1 : ∀ w, ((vs.count w : Nat) : Int) ≤
        (fun y => if y = v then indeg v - 1 else indeg y) w := by
      intro w
      by_cases hw : w = v
      · rw [hw]
        simp only [if_pos rfl]
        have h2 := hub v
        omega
      · simp only [if_neg hw]
        have hbne : (v == w) = false := by
          rw [beq_eq_false_iff_ne]
          exact fun h => hw h.symm
        have hcw : List.count w (v :: vs) = vs.count w := by
          rw [List.count_cons, hbne]
          simp
        have h2 := hub w
        rw [hcw] at h2
        exact h2
    rw [ih _ _ hnn1 hub1]
    by_cases hx : x = v
    · rw [hx]
      simp only [if_pos rfl, if_true]
      by_cases hd : indeg v - 1 = 0
      · -- the head hit zero: it is enqueued now, and `v ∉ vs`
        have hvs0 : (vs.count v : Int) = 0 := by
          have h1 := hub1 v
          simp only [if_pos rfl, if_true] at h1
          have h2 : (0 : Int) ≤ (vs.count v : Int) := Int.ofNat_nonneg _
          omega
        have hcold : (1 ≤ indeg v ∧ (List.count v (v :: vs) : Int) = indeg v) :=
          ⟨by omega, by omega⟩
        have hcnew : ¬(1 ≤ indeg v - 1 ∧ (vs.count v : Int) = indeg v - 1) := by
          rintro ⟨h1, _⟩
          omega
        rw [if_pos hd, if_pos hcold, if_neg hcnew]
        rw [List.count_append]
        simp
      · -- head not at zero: queue unchanged, the two conditions coincide
        have hiff : (1 ≤ indeg v - 1 ∧ (vs.count v : Int) = indeg v - 1) ↔
            (1 ≤ indeg v ∧ (List.count v (v :: vs) : Int) = indeg v) := by
          constructor
          · rintro ⟨h1, h2⟩
            exact ⟨by omega, by omega⟩
          · rintro ⟨h1, h2⟩
            have hc0 : (0 : Int) ≤ (vs.count v : Int) := Int.ofNat_nonneg _
            exact ⟨by omega, by omega⟩
        rw [if_neg hd]
        by_cases hc : 1 ≤ indeg v - 1 ∧ (vs.count v : Int) = indeg v - 1
        · rw [if_pos hc, if_pos (hiff.mp hc)]
        · rw [if_neg hc, if_neg (fun h => hc (hiff.mpr h))]
    · -- x is not the decremented head
      have hbne : (v == x) = false := by
        rw [beq_eq_false_iff_ne]
        exact fun h => hx h.symm
      have hcx : List.count x (v :: vs) = vs.count x := by
        rw [List.count_cons, hbne]
        simp
      rw [hcx]
      simp only [if_neg hx]
      by_cases hd : indeg v - 1 = 0
      · rw [if_pos hd, List.count_append]
        have hone : List.count x [v] = 0 := by
          rw [List.count_singleton]
          simp [hbne]
        rw [hone]
        omega
      · rw [if_neg hd]

/-! ### Counting lemmas for the invariant -/

theorem countP_split {α : Type} (l : List α) (p r : α → Bool) :
    l.countP p = l.countP (fun a => p a && r a) + l.countP (fun a => p a && !r a) := by
  induction l with
  | nil => simp
  | cons a t ih =>
    rw [List.countP_cons, List.countP_cons, List.countP_cons, ih]
    by_cases hp : p a = true <;> by_cases hr : r a = true <;> simp [hp, hr] <;> omega

theorem countIn_nonneg (es : List EdgeData) (order : List String) (x : String) :
    0 ≤ countIn es order x :=
  Int.ofNat_nonneg _

theorem adjOf_count (es : List EdgeData) (u x : String) :
    (adjOf es u).count x = es.countP (fun e => e.target = x && e.source = u) := by
  unfold adjOf
  have h0 : ((es.filter (fun e => e.source = u)).map (·.target)).count x =
      ((es.filter (fun e => e.source = u)).map (·.target)).countP (· == x) := rfl
  rw [h0, List.countP_map, List.countP_filter]
  apply List.countP_congr
  intro e _
  by_cases h1 : e.target = x <;> by_cases h2 : e.source = u <;>
    simp [Function.comp, h1, h2]

theorem adjOf_count_le (es : List EdgeData) (order : List String) (u x : String)
    (hu : u ∉ order) : ((adjOf es u).count x : Int) ≤ countIn es order x := by
  rw [adjOf_count]
  unfold countIn
  have hmono : es.countP (fun e => e.target = x && e.source = u) ≤
      es.countP (fun e => e.target = x && !(order.contains e.source)) := by
    apply List.countP_mono_left
    intro e _ he
    rw [Bool.and_eq_true] at he
    rw [Bool.and_eq_true]
    refine ⟨he.1, ?_⟩
    have hsrc : e.source = u := by simpa using he.2
    rw [hsrc]
    simp only [Bool.not_eq_true']
    rw [← Bool.not_eq_true]
    intro hc
    exact hu (List.mem_of_elem_eq_true hc)
  exact_mod_cast hmono

theorem countIn_append (es : List EdgeData) (order : List String) (u x : String)
    (hu : u ∉ order) :
    countIn es (order ++ [u]) x = countIn es order x - (adjOf es u).count x := by
  rw [adjOf_count]
  unfold countIn
  have hsplit := countP_split es (fun e => e.target = x && !(order.contains e.source))
    (fun e => e.source == u)
  have h1 : es.countP (fun e =>
      (e.target = x && !(order.contains e.source)) && (e.source == u)) =
      es.countP (fun e => e.target = x && e.source = u) := by
    apply List.countP_congr
    intro e _
    by_cases hs : e.source = u
    · have hcf : order.contains e.source = false := by
        rw [← Bool.not_eq_true]
        intro hc
        rw [hs] at hc
        exact hu (List.mem_of_elem_eq_true hc)
      rw [hcf, hs]
      simp
    · have hbf : (e.source == u) = false := beq_eq_false_iff_ne.mpr hs
      rw [hbf]
      simp [hs]
  have h2 : es.countP (fun e =>
      (e.target = x && !(order.contains e.source)) && !(e.source == u)) =
      es.countP (fun e => e.target = x && !((order ++ [u]).contains e.source)) := by
    apply List.countP_congr
    intro e _
    have hca : (order ++ [u]).contains e.source =
        (order.contains e.source || (e.source == u)) := by
      simp only [List.contains_eq_any_beq, List.any_append, List.any_cons, List.any_nil,
        Bool.or_false]
    rw [hca]
    by_cases ht : e.target = x <;>
      by_cases h3 : order.contains e.source <;>
        by_cases h4 : (e.source == u) = true <;> simp [ht, h3, h4]
  rw [h1, h2] at hsplit
  have hle : es.countP (fun e => e.target = x && e.source = u) +
      es.countP (fun e => e.target = x && !((order ++ [u]).contains e.source)) =
      es.countP (fun e => e.target = x && !(order.contains e.source)) := by omega
  omega

/-! ### The invariant holds initially and is preserved by each pop -/

theorem countIn_popped {ids : List String} {es : List EdgeData} {q : List String}
    {indeg : String → Int} {order : List String}
    (inv : KahnInv ids es q indeg order) {x : String} (hx : x ∈ order) :
    countIn es order x = 0 := by
  unfold countIn
  have h0 : es.countP (fun e => e.target = x && !(order.contains e.source)) = 0 := by
    rw [List.countP_eq_zero]
    intro e he hp
    rw [Bool.and_eq_true] at hp
    have ht : e.target = x := by simpa using hp.1
    have hnc : e.source ∉ order := by
      have h2 := hp.2
      rw [Bool.not_eq_true'] at h2
      intro hmem
      have h3 : order.contains e.source = true := List.elem_eq_true_of_mem hmem
      rw [h3] at h2
      cases h2
    obtain ⟨j, hj, hxj⟩ := List.getElem_of_mem hx
    have hs := inv.sorted e he j hj (by rw [hxj, ht])
    exact hnc (List.mem_of_mem_take hs)
  rw [h0]
  rfl

theorem kahnInv_length {ids : List String} {es : List EdgeData} {q : List String}
    {indeg : String → Int} {order : List String} (hids : ids.Nodup)
    (inv : KahnInv ids es q indeg order) : order.length + q.length ≤ ids.length := by
  have hnd := inv.nodup
  have hsub : order ++ q ⊆ ids := by
    intro x hx
    rw [List.mem_append] at hx
    rcases hx with h | h
    · exact inv.order_sub x h
    · exact inv.q_sub x h
  have h1 : (order ++ q).length = (order ++ q).toFinset.card :=
    (List.toFinset_card_of_nodup hnd).symm
  have h2 : (order ++ q).toFinset ⊆ ids.toFinset := by
    intro x hx
    rw [List.mem_toFinset] at hx ⊢
    exact hsub hx
  have h3 := Finset.card_le_card h2
  have h4 : ids.toFinset.card = ids.length := List.toFinset_card_of_nodup hids
  rw [List.length_append] at h1
  omega

theorem kahnInv_step {ids : List String} {es : List EdgeData} {u : String}
    {qs : List String} {indeg : String → Int} {order : List String}
    (hes : ∀ e ∈ es, e.source ∈ ids ∧ e.target ∈ ids)
    (inv : KahnInv ids es (u :: qs) indeg order) :
    KahnInv ids es (relax indeg qs (adjOf es u)).2 (relax indeg qs (adjOf es u)).1
      (order ++ [u]) := by
  have hu_ids : u ∈ ids := inv.q_sub u (List.mem_cons_self u qs)
  have hnd := inv.nodup
  have hdisj : ∀ x ∈ order, x ∉ (u :: qs) := by
    intro x hx hmem
    exact (List.disjoint_of_nodup_append hnd) hx hmem
  have hu_no : u ∉ order := fun h => hdisj u h (List.mem_cons_self u qs)
  have hindeg_u : indeg u = 0 :=
    (inv.queue_iff u hu_ids hu_no).mp (List.mem_cons_self u qs)
  have hnn : ∀ v, 0 ≤ indeg v := by
    intro v
    rw [inv.indeg_eq v]
    exact countIn_nonneg es order v
  have hub : ∀ v, (((adjOf es u).count v : Nat) : Int) ≤ indeg v := by
    intro v
    rw [inv.indeg_eq v]
    exact adjOf_count_le es order u v hu_no
  have hfst : ∀ x, (relax indeg qs (adjOf es u)).1 x = countIn es (order ++ [u]) x := by
    intro x
    rw [relax_fst, inv.indeg_eq x, countIn_append es order u x hu_no]
  have hcnt : ∀ x, (relax indeg qs (adjOf es u)).2.count x =
      qs.count x + (if 1 ≤ indeg x ∧ ((adjOf es u).count x : Int) = indeg x then 1 else 0) :=
    relax_snd_count (adjOf es u) indeg qs hnn hub
  have hmem2 : ∀ x, x ∈ (relax indeg qs (adjOf es u)).2 ↔
      (x ∈ qs ∨ (1 ≤ indeg x ∧ ((adjOf es u).count x : Int) = indeg x)) := by
    intro x
    rw [← List.count_pos_iff, hcnt x]
    constructor
    · intro h
      by_cases hc : 1 ≤ indeg x ∧ ((adjOf es u).count x : Int) = indeg x
      · exact Or.inr hc
      · rw [if_neg hc] at h
        left
        rw [← List.count_pos_iff]
        omega
    · intro h
      rcases h with h | h
      · have := List.count_pos_iff.mpr h
        omega
      · rw [if_pos h]
        omega
  have htgt : ∀ x, 1 ≤ ((adjOf es u).count x : Int) → x ∈ ids := by
    intro x h
    have hx : x ∈ adjOf es u := by
      rw [← List.count_pos_iff]
      omega
    unfold adjOf at hx
    rw [List.mem_map] at hx
    obtain ⟨e, he, rfl⟩ := hx
    exact (hes e (List.mem_of_mem_filter he)).2
  refine ⟨?_, ?_, ?_, hfst, ?_, ?_⟩
  · -- q_sub
    intro x hx
    rcases (hmem2 x).mp hx with h | h
    · exact inv.q_sub x (List.mem_cons_of_mem u h)
    · obtain ⟨h1, h2⟩ := h
      exact htgt x (by omega)
  · -- order_sub
    intro x hx
    rw [List.mem_append, List.mem_singleton] at hx
    rcases hx with h | h
    · exact inv.order_sub x h
    · exact h ▸ hu_ids
  · -- nodup
    rw [List.nodup_iff_count_le_one]
    intro x
    have hold := List.nodup_iff_count_le_one.mp hnd x
    rw [List.count_append, List.count_cons] at hold
    rw [List.count_append, List.count_append, List.count_singleton, hcnt x]
    by_cases hc : 1 ≤ indeg x ∧ ((adjOf es u).count x : Int) = indeg x
    · rw [if_pos hc]
      obtain ⟨h1, h2⟩ := hc
      have hxo : x ∉ order := by
        intro hmem
        have hz := countIn_popped inv hmem
        rw [inv.indeg_eq x] at h1
        omega
      have hxqs : x ∉ qs := by
        intro hmem
        have h0 := (inv.queue_iff x (inv.q_sub x (List.mem_cons_of_mem u hmem))
          hxo).mp (List.mem_cons_of_mem u hmem)
        omega
      have hxu : x ≠ u := by
        intro he
        rw [he] at h1
        omega
      have c1 : order.count x = 0 := List.count_eq_zero.mpr hxo
      have c2 : qs.count x = 0 := List.count_eq_zero.mpr hxqs
      have c4 : (u == x) = false := beq_eq_false_iff_ne.mpr (fun h => hxu h.symm)
      rw [c1, c2, c4]
      simp
    · rw [if_neg hc]
      by_cases hxu : x = u
      · rw [hxu] at hold ⊢
        simp at hold ⊢
        omega
      · have c4 : (u == x) = false := beq_eq_false_iff_ne.mpr (fun h => hxu h.symm)
        rw [c4] at hold ⊢
        simp at hold ⊢
        omega
  · -- queue_iff
    intro x hxids hxno
    have hxo : x ∉ order := fun h => hxno (List.mem_append_left [u] h)
    have hxu : x ≠ u := by
      intro h
      exact hxno (by rw [h]; exact List.mem_append_right order (List.mem_singleton_self u))
    rw [hmem2 x, hfst x, countIn_append es order u x hu_no, ← inv.indeg_eq x]
    constructor
    · intro h
      rcases h with h | h
      · have h0 := (inv.queue_iff x hxids hxo).mp (List.mem_cons_of_mem u h)
        have hc := hub x
        have hc0 : (0 : Int) ≤ ((adjOf es u).count x : Int) := Int.ofNat_nonneg _
        omega
      · obtain ⟨h1, h2⟩ := h
        omega
    · intro h
      by_cases h1 : 1 ≤ indeg x
      · right
        exact ⟨h1, by omega⟩
      · left
        have h0 : indeg x = 0 := by
          have := hnn x
          omega
        have hmem := (inv.queue_iff x hxids hxo).mpr h0
        rcases List.mem_cons.mp hmem with h | h
        · exact absurd h hxu
        · exact h
  · -- sorted
    intro e he j hj hget
    rw [List.length_append, List.length_singleton] at hj
    by_cases hlt : j < order.length
    · have hg : (order ++ [u])[j] = order[j] := List.getElem_append_left hlt
      rw [hg] at hget
      have hs := inv.sorted e he j hlt hget
      rw [List.take_append_of_le_length (le_of_lt hlt)]
      exact hs
    · have hj' : j = order.length := by omega
      subst hj'
      rw [List.getElem_concat_length order u order.length rfl] at hget
      have h0 : countIn es order u = 0 := by
        rw [← inv.indeg_eq u]
        exact hindeg_u
      unfold countIn at h0
      have h0' : es.countP (fun e => e.target = u && !(order.contains e.source)) = 0 := by
        exact_mod_cast h0
      rw [List.countP_eq_zero] at h0'
      have hne := h0' e he
      rw [List.take_left]
      by_cases hcont : order.contains e.source
      · exact List.mem_of_elem_eq_true hcont
      · exfalso
        apply hne
        rw [Bool.and_eq_true]
        constructor
        · simp [hget]
        · rw [Bool.not_eq_true] at hcont
          rw [hcont]
          rfl

theorem kahnInv_init (ids : List String) (es : List EdgeData) (hids : ids.Nodup) :
    KahnInv ids es (ids.filter (fun id => indeg0 es id = 0)) (indeg0 es) [] := by
  refine ⟨?_, ?_, ?_, ?_, ?_, ?_⟩
  · intro x hx
    exact List.mem_of_mem_filter hx
  · intro x hx
    cases hx
  · simpa using hids.filter _
  · intro x
    unfold countIn indeg0
    congr 1
    apply List.countP_congr
    intro e _
    simp [List.contains]
  · intro x hxids _
    rw [List.mem_filter]
    constructor
    · rintro ⟨_, h⟩
      simpa using h
    · intro h
      exact ⟨hxids, by simpa using h⟩
  · intro e he j hj hget
    exact absurd hj (by simp)

/-- With fuel at least `|ids| − |order|`, the loop drains its queue and the
invariant carries to the final state. -/
theorem topoLoop_final {ids : List String} {es : List EdgeData}
    (hids : ids.Nodup) (hes : ∀ e ∈ es, e.source ∈ ids ∧ e.target ∈ ids) :
    ∀ (fuel : Nat) (q : List String) (indeg : String → Int) (order : List String),
      KahnInv ids es q indeg order → ids.length - order.length ≤ fuel →
      ∃ indeg' order', topoLoop (adjOf es) fuel q indeg order = ([], indeg', order') ∧
        KahnInv ids es [] indeg' order' := by
  intro fuel
  induction fuel with
  | zero =>
    intro q indeg order inv hfuel
    have hlen := kahnInv_length hids inv
    have hq : q = [] := by
      rw [← List.length_eq_zero]
      omega
    subst hq
    exact ⟨indeg, order, rfl, inv⟩
  | succ fuel ih =>
    intro q indeg order inv hfuel
    cases q with
    | nil => exact ⟨indeg, order, rfl, inv⟩
    | cons u qs =>
      have inv' := kahnInv_step hes inv
      have hlen := kahnInv_length hids inv
      rw [List.length_cons] at hlen
      have hfuel' : ids.length - (order ++ [u]).length ≤ fuel := by
        rw [List.length_append, List.length_singleton]
        omega
      obtain ⟨indeg', order', heq, hinv⟩ := ih _ _ _ inv' hfuel'
      refine ⟨indeg', order', ?_, hinv⟩
      rw [← heq]
      simp only [topoLoop]

theorem filteredEdges_endpoints (ids : List String) (edgeList : List EdgeData) :
    ∀ e ∈ filteredEdges ids edgeList, e.source ∈ ids ∧ e.target ∈ ids := by
  intro e he
  unfold filteredEdges at he
  rw [List.mem_filter, Bool.and_eq_true] at he
  exact ⟨List.mem_of_elem_eq_true he.2.1, List.mem_of_elem_eq_true he.2.2⟩

/-- For duplicate-free node ids, `topoOrder` is the order of a drained-queue
final state of the Kahn loop, and the loop invariant holds there.  In
particular the fuel `ids.length + edgeList.length` never runs out, so the
embedding agrees with the unbounded JS `while` loop. -/
theorem topoOrder_spec (nodeList : List NodeData) (edgeList : List EdgeData)
    (hnd : (nodeList.map NodeData.id).Nodup) :
    ∃ indeg', KahnInv (nodeList.map NodeData.id)
      (filteredEdges (nodeList.map NodeData.id) edgeList) []
      indeg' (topoOrder nodeList edgeList) := by
  obtain ⟨indeg', order', heq, hinv⟩ :=
    topoLoop_final hnd (filteredEdges_endpoints (nodeList.map NodeData.id) edgeList)
      ((nodeList.map NodeData.id).length + edgeList.length)
      ((nodeList.map NodeData.id).filter
        (fun id => indeg0 (filteredEdges (nodeList.map NodeData.id) edgeList) id = 0))
      (indeg0 (filteredEdges (nodeList.map NodeData.id) edgeList)) []
      (kahnInv_init _ _ hnd) (by omega)
  refine ⟨indeg', ?_⟩
  have ht : topoOrder nodeList edgeList = order' := by
    show (topoLoop (adjOf (filteredEdges (nodeList.map NodeData.id) edgeList))
      ((nodeList.map NodeData.id).length + edgeList.length)
      ((nodeList.map NodeData.id).filter
        (fun id => indeg0 (filteredEdges (nodeList.map NodeData.id) edgeList) id = 0))
      (indeg0 (filteredEdges (nodeList.map NodeData.id) edgeList)) []).2.2 = order'
    rw [heq]
  rw [ht]
  exact hinv

/-! ### From the drained-queue final state to graph-level facts -/

/-- In a finite set in which every element has a predecessor, some element
reaches itself through a cycle that also reaches the starting point. -/
theorem chain_cycle {α : Type} [DecidableEq α] (r : α → α → Prop) (S : Finset α) (x : α)
    (hx : x ∈ S) (hpred : ∀ y ∈ S, ∃ z ∈ S, r z y) :
    ∃ c, Relation.TransGen r c c ∧ Relation.ReflTransGen r c x := by
  have hstep : ∀ p : {y // y ∈ S ∧ Relation.ReflTransGen r y x},
      ∃ p' : {y // y ∈ S ∧ Relation.ReflTransGen r y x}, r p'.1 p.1 := by
    rintro ⟨y, hy, hyx⟩
    obtain ⟨z, hz, hzy⟩ := hpred y hy
    exact ⟨⟨z, hz, Relation.ReflTransGen.head hzy hyx⟩, hzy⟩
  choose f hf using hstep
  let G : ℕ → {y // y ∈ S ∧ Relation.ReflTransGen r y x} :=
    fun n => Nat.rec ⟨x, hx, Relation.ReflTransGen.refl⟩ (fun _ p => f p) n
  have hGstep : ∀ n, r (G (n + 1)).1 (G n).1 := fun n => hf (G n)
  have htrans : ∀ i k, Relation.TransGen r (G (i + k + 1)).1 (G i).1 := by
    intro i k
    induction k with
    | zero => exact Relation.TransGen.single (hGstep i)
    | succ k ih =>
      have h2 : i + (k + 1) + 1 = (i + k + 1) + 1 := by ring
      rw [h2]
      exact Relation.TransGen.head (hGstep (i + k + 1)) ih
  have key : ∀ i j, i < j → (G i).1 = (G j).1 →
      ∃ c, Relation.TransGen r c c ∧ Relation.ReflTransGen r c x := by
    intro i j hlt heq2
    obtain ⟨k, hk⟩ : ∃ k, j = i + k + 1 := ⟨j - i - 1, by omega⟩
    subst hk
    have ht := htrans i k
    rw [← heq2] at ht
    exact ⟨(G i).1, ht, (G i).2.2⟩
  have hmap : ∀ n ∈ Finset.range (S.card + 1), (G n).1 ∈ S := fun n _ => (G n).2.1
  have hlt : S.card < (Finset.range (S.card + 1)).card := by simp
  obtain ⟨i, hi, j, hj, hij, hGij⟩ :=
    Finset.exists_ne_map_eq_of_card_lt_of_maps_to hlt hmap
  rcases Nat.lt_or_ge i j with h | h
  · exact key i j h hGij
  · exact key j i (by omega) hGij.symm

theorem exists_getElem_of_mem_take {l : List String} {n : Nat} {x : String}
    (h : x ∈ l.take n) : ∃ i, ∃ hi : i < l.length, i < n ∧ l[i] = x := by
  obtain ⟨i, hi, hx⟩ := List.getElem_of_mem h
  have hlen : i < min n l.length := by
    rw [← List.length_take]
    exact hi
  refine ⟨i, by omega, by omega, ?_⟩
  rw [← hx]
  exact (List.getElem_take l).symm

/-- Every kept edge whose target made it into the final order has its
source strictly earlier in the order. -/
theorem sorted_positions {ids : List String} {es : List EdgeData}
    {indeg : String → Int} {order : List String}
    (inv : KahnInv ids es [] indeg order) {e : EdgeData} (he : e ∈ es)
    (ht : e.target ∈ order) :
    ∃ i j, ∃ hi : i < order.length, ∃ hj : j < order.length,
      i < j ∧ order[i] = e.source ∧ order[j] = e.target := by
  obtain ⟨j, hj, hget⟩ := List.getElem_of_mem ht
  have hs := inv.sorted e he j hj hget
  obtain ⟨i, hi, hlt, hgi⟩ := exists_getElem_of_mem_take hs
  exact ⟨i, j, hi, hj, hlt, hgi, hget⟩

theorem estep_lt {ids : List String} {es : List EdgeData}
    {indeg : String → Int} {order : List String}
    (inv : KahnInv ids es [] indeg order) (hnd : order.Nodup)
    {a b : String} (hstep : EStep es a b) (hb : b ∈ order) :
    a ∈ order ∧ order.indexOf a < order.indexOf b := by
  obtain ⟨e, he, hsa, htb⟩ := hstep
  obtain ⟨i, j, hi, hj, hij, hgi, hgj⟩ := sorted_positions inv he (by rw [htb]; exact hb)
  have ha : a ∈ order := by
    rw [← hsa, ← hgi]
    exact List.getElem_mem hi
  have hia : order.indexOf a = i := by
    have h1 : order.indexOf a < order.length := List.indexOf_lt_length.mpr ha
    have h2 : order[order.indexOf a] = a := List.getElem_indexOf h1
    exact (List.Nodup.getElem_inj_iff hnd).mp (by rw [h2, hgi, hsa])
  have hjb : order.indexOf b = j := by
    have h1 : order.indexOf b < order.length := List.indexOf_lt_length.mpr hb
    have h2 : order[order.indexOf b] = b := List.getElem_indexOf h1
    exact (List.Nodup.getElem_inj_iff hnd).mp (by rw [h2, hgj, htb])
  rw [hia, hjb]
  exact ⟨ha, hij⟩

theorem transGen_lt {ids : List String} {es : List EdgeData}
    {indeg : String → Int} {order : List String}
    (inv : KahnInv ids es [] indeg order) (hnd : order.Nodup)
    {a b : String} (h : Relation.TransGen (EStep es) a b) (hb : b ∈ order) :
    a ∈ order ∧ order.indexOf a < order.indexOf b := by
  induction h with
  | single h1 => exact estep_lt inv hnd h1 hb
  | tail h1 h2 ih =>
    have hstep := estep_lt inv hnd h2 hb
    have hmid := ih hstep.1
    exact ⟨hmid.1, lt_trans hmid.2 hstep.2⟩

/-- With an empty final queue, every listed id missing from the order has a
kept-edge predecessor that is also missing. -/
theorem omitted_has_omitted_pred {ids : List String} {es : List EdgeData}
    {indeg : String → Int} {order : List String}
    (hes : ∀ e ∈ es, e.source ∈ ids ∧ e.target ∈ ids)
    (inv : KahnInv ids es [] indeg order) {x : String}
    (hx : x ∈ ids) (hno : x ∉ order) :
    ∃ z, z ∈ ids ∧ z ∉ order ∧ EStep es z x := by
  have hne : indeg x ≠ 0 := by
    intro h0
    exact absurd ((inv.queue_iff x hx hno).mpr h0) (List.not_mem_nil x)
  rw [inv.indeg_eq x] at hne
  have hpos : 0 < es.countP (fun e => e.target = x && !(order.contains e.source)) := by
    by_contra hc
    apply hne
    unfold countIn
    omega
  rw [List.countP_pos_iff] at hpos
  obtain ⟨e, he, hp⟩ := hpos
  rw [Bool.and_eq_true] at hp
  have ht : e.target = x := by simpa using hp.1
  have hs : e.source ∉ order := by
    intro hmem
    have h3 : order.contains e.source = true := List.elem_eq_true_of_mem hmem
    rw [h3] at hp
    simpa using hp.2
  exact ⟨e.source, (hes e he).1, hs, e, he, rfl, ht⟩

/-- **C1.**  With duplicate-free node ids (editor node ids are unique) and
no directed cycle among the kept edges, `topoOrder` returns a permutation
of all the node ids in which every kept edge's source appears strictly
before its target. -/
theorem C1_topoOrder_acyclic_permutation (nodeList : List NodeData)
    (edgeList : List EdgeData) (hnd : (nodeList.map NodeData.id).Nodup)
    (hacyc : ∀ x, ¬ Relation.TransGen
      (EStep (filteredEdges (nodeList.map NodeData.id) edgeList)) x x) :
    (topoOrder nodeList edgeList).Perm (nodeList.map NodeData.id) ∧
    (∀ e ∈ edgeList, e.source ∈ nodeList.map NodeData.id →
      e.target ∈ nodeList.map NodeData.id →
      ∃ i j, ∃ hi : i < (topoOrder nodeList edgeList).length,
        ∃ hj : j < (topoOrder nodeList edgeList).length,
        i < j ∧ (topoOrder nodeList edgeList)[i] = e.source ∧
          (topoOrder nodeList edgeList)[j] = e.target) := by
  obtain ⟨indeg', hinv⟩ := topoOrder_spec nodeList edgeList hnd
  have hes := filteredEdges_endpoints (nodeList.map NodeData.id) edgeList
  have hrnodup : (topoOrder nodeList edgeList).Nodup := by simpa using hinv.nodup
  have hsub2 : ∀ x ∈ nodeList.map NodeData.id, x ∈ topoOrder nodeList edgeList := by
    by_contra hc
    push_neg at hc
    obtain ⟨x, hx, hxr⟩ := hc
    have hxU : x ∈ (nodeList.map NodeData.id).toFinset.filter
        (fun y => y ∉ topoOrder nodeList edgeList) := by
      rw [Finset.mem_filter, List.mem_toFinset]
      exact ⟨hx, hxr⟩
    have hpredU : ∀ y ∈ (nodeList.map NodeData.id).toFinset.filter
        (fun y => y ∉ topoOrder nodeList edgeList),
        ∃ z ∈ (nodeList.map NodeData.id).toFinset.filter
          (fun y => y ∉ topoOrder nodeList edgeList),
          EStep (filteredEdges (nodeList.map NodeData.id) edgeList) z y := by
      intro y hy
      rw [Finset.mem_filter, List.mem_toFinset] at hy
      obtain ⟨z, hz1, hz2, hz3⟩ := omitted_has_omitted_pred hes hinv hy.1 hy.2
      refine ⟨z, ?_, hz3⟩
      rw [Finset.mem_filter, List.mem_toFinset]
      exact ⟨hz1, hz2⟩
    obtain ⟨c, hcyc, _⟩ := chain_cycle _ _ x hxU hpredU
    exact hacyc c hcyc
  constructor
  · refine List.Subperm.antisymm ?_ ?_
    · exact List.subperm_of_subset hrnodup (fun x hx => hinv.order_sub x hx)
    · exact List.subperm_of_subset hnd hsub2
  · intro e he hsrc htgt
    have hkept : e ∈ filteredEdges (nodeList.map NodeData.id) edgeList := by
      unfold filteredEdges
      rw [List.mem_filter]
      refine ⟨he, ?_⟩
      rw [Bool.and_eq_true]
      exact ⟨List.elem_eq_true_of_mem hsrc, List.elem_eq_true_of_mem htgt⟩
    exact sorted_positions hinv hkept (hsub2 e.target htgt)

/-- The two-edge chain `a→b→c` is acyclic (helper for the C1 witness). -/
theorem acyclic_chain_ab_bc : ∀ x, ¬ Relation.TransGen
    (EStep (filteredEdges ["a", "b", "c"] [E 1 "a" "b", E 2 "b" "c"])) x x := by
  have hstep : ∀ y z,
      EStep (filteredEdges ["a", "b", "c"] [E 1 "a" "b", E 2 "b" "c"]) y z →
      (if y = "a" then 0 else if y = "b" then 1 else 2) <
        (if z = "a" then (0 : Nat) else if z = "b" then 1 else 2) := by
    rintro y z ⟨e, he, rfl, rfl⟩
    have hfe : filteredEdges ["a", "b", "c"] [E 1 "a" "b", E 2 "b" "c"] =
        [E 1 "a" "b", E 2 "b" "c"] := rfl
    rw [hfe] at he
    simp only [List.mem_cons, List.not_mem_nil, or_false] at he
    rcases he with he | he <;> rw [he] <;> decide
  have hmono : ∀ y z,
      Relation.TransGen (EStep (filteredEdges ["a", "b", "c"]
        [E 1 "a" "b", E 2 "b" "c"])) y z →
      (if y = "a" then 0 else if y = "b" then 1 else 2) <
        (if z = "a" then (0 : Nat) else if z = "b" then 1 else 2) := by
    intro y z h
    induction h with
    | single h1 => exact hstep _ _ h1
    | tail h1 h2 ih => exact lt_trans ih (hstep _ _ h2)
  intro x hx
  exact absurd (hmono x x hx) (lt_irrefl _)

/-- Witness for C1 on the acyclic chain `a→b→c`: the order is a permutation
of the ids. -/
theorem C1_topoOrder_acyclic_permutation_witness :
    (topoOrder [N "a", N "b", N "c"] [E 1 "a" "b", E 2 "b" "c"]).Perm
      ([N "a", N "b", N "c"].map NodeData.id) :=
  (C1_topoOrder_acyclic_permutation [N "a", N "b", N "c"] [E 1 "a" "b", E 2 "b" "c"]
    (by decide) acyclic_chain_ab_bc).1

/-! ### Runner loop bookkeeping -/

theorem runNodeStep_calls (exec : Exec) (nodes : List NodeData)
    (ups : String → List String) (st : RunState) (id : String) :
    (runNodeStep exec nodes ups st id).calls =
      st.calls ++ [(id, buildInputs (ups id) st.lastOutputs)] := by
  simp only [runNodeStep]
  split
  · rfl
  · split
    · rfl
    · rfl

theorem runNodeStep_logs (exec : Exec) (nodes : List NodeData)
    (ups : String → List String) (st : RunState) (id : String) :
    ∃ extra, (runNodeStep exec nodes ups st id).logs = st.logs ++ extra ∧
      ∀ l ∈ extra, l.ok = false → ∃ s, l.text = "❌ " ++ s := by
  simp only [runNodeStep]
  split
  · rename_i msg _
    refine ⟨[⟨id, true, "▶ Running…"⟩, ⟨id, false, "❌ Exception: " ++ msg⟩], by simp, ?_⟩
    intro l hl hfalse
    simp only [List.mem_cons, List.not_mem_nil, or_false] at hl
    rcases hl with hl | hl
    · subst hl
      simp at hfalse
    · subst hl
      refine ⟨"Exception: " ++ msg, ?_⟩
      rw [← String.append_assoc]
      rfl
  · rename_i ok output error rlogs stdout _
    by_cases hok : ok = true
    · rw [if_pos hok]
      refine ⟨[⟨id, true, "▶ Running…"⟩] ++ rlogs.map (fun l => ⟨id, true, l⟩)
        ++ stdout.map (fun l => ⟨id, true, l⟩)
        ++ [⟨id, true, "✅ " ++ successText (jsOutput output)⟩], by simp, ?_⟩
      intro l hl hfalse
      exfalso
      simp only [List.mem_append, List.mem_map, List.mem_cons,
        List.not_mem_nil, or_false] at hl
      rcases hl with ((hl | hl) | hl) | hl
      · subst hl
        simp at hfalse
      · obtain ⟨a, -, hl⟩ := hl
        subst hl
        simp at hfalse
      · obtain ⟨a, -, hl⟩ := hl
        subst hl
        simp at hfalse
      · subst hl
        simp at hfalse
    · rw [if_neg hok]
      refine ⟨[⟨id, true, "▶ Running…"⟩] ++ rlogs.map (fun l => ⟨id, true, l⟩)
        ++ stdout.map (fun l => ⟨id, true, l⟩)
        ++ [⟨id, false, "❌ " ++ errText error⟩], by simp, ?_⟩
      intro l hl hfalse
      simp only [List.mem_append, List.mem_map, List.mem_cons,
        List.not_mem_nil, or_false] at hl
      rcases hl with ((hl | hl) | hl) | hl
      · subst hl
        simp at hfalse
      · obtain ⟨a, -, hl⟩ := hl
        subst hl
        simp at hfalse
      · obtain ⟨a, -, hl⟩ := hl
        subst hl
        simp at hfalse
      · subst hl
        exact ⟨errText error, rfl⟩

theorem runLoop_calls_map (exec : Exec) (nodes : List NodeData)
    (ups : String → List String) :
    ∀ (order : List String) (st : RunState),
      (order.foldl (runNodeStep exec nodes ups) st).calls.map Prod.fst =
        st.calls.map Prod.fst ++ order := by
  intro order
  induction order with
  | nil => intro st; simp
  | cons id rest ih =>
    intro st
    rw [List.foldl_cons, ih, runNodeStep_calls]
    simp

theorem runLoop_logs (exec : Exec) (nodes : List NodeData)
    (ups : String → List String) :
    ∀ (order : List String) (st : RunState),
      ∃ extra, (order.foldl (runNodeStep exec nodes ups) st).logs = st.logs ++ extra ∧
        ∀ l ∈ extra, l.ok = false → ∃ s, l.text = "❌ " ++ s := by
  intro order
  induction order with
  | nil => intro st; exact ⟨[], by simp, by simp⟩
  | cons id rest ih =>
    intro st
    obtain ⟨e1, he1, hp1⟩ := runNodeStep_logs exec nodes ups st id
    obtain ⟨e2, he2, hp2⟩ := ih (runNodeStep exec nodes ups st id)
    refine ⟨e1 ++ e2, ?_, ?_⟩
    · rw [List.foldl_cons, he2, he1, List.append_assoc]
    · intro l hl hfalse
      rw [List.mem_append] at hl
      rcases hl with h | h
      · exact hp1 l h hfalse
      · exact hp2 l h hfalse

/-- The warning line cannot be produced by the node loop: every `ok=false`
line it pushes starts with the cross mark. -/
theorem cycleWarning_not_cross (s : String) : ("❌ " ++ s) ≠ cycleWarning.text := by
  intro h
  have h2 := congrArg String.data h
  rw [String.data_append] at h2
  have h3 : "❌ ".data = ['❌', ' '] := by decide
  rw [h3] at h2
  have h4 : cycleWarning.text.data =
      'W' :: "arning: cycle detected; running partial order.".data := by decide
  rw [h4] at h2
  simp at h2

theorem activeIds_nodup (nodes : List NodeData) (edges : List EdgeData)
    (hnd : (nodes.map NodeData.id).Nodup) : (activeIds nodes edges).Nodup := by
  have hsl : (activeIds nodes edges).Sublist (nodes.map NodeData.id) :=
    List.Sublist.map NodeData.id (List.filter_sublist nodes)
  exact hnd.sublist hsl

/-- **C2 (counterexample to the reachability clause).**  In the graph
`a→b, b→c, c→b` the result is `["a"]`: node `b` is omitted even though it
is reachable from the zero-in-degree start `a`, so the omitted nodes are
not "exactly the nodes not reachable from a zero-in-degree start". -/
theorem C2_not_reachability_counterexample :
    topoOrder [N "a", N "b", N "c"] [E 1 "a" "b", E 2 "b" "c", E 3 "c" "b"] = ["a"] ∧
    indeg0 (filteredEdges ["a", "b", "c"] [E 1 "a" "b", E 2 "b" "c", E 3 "c" "b"]) "a" = 0 ∧
    Relation.ReflTransGen
      (EStep (filteredEdges ["a", "b", "c"] [E 1 "a" "b", E 2 "b" "c", E 3 "c" "b"]))
      "a" "b" ∧
    "b" ∉ topoOrder [N "a", N "b", N "c"] [E 1 "a" "b", E 2 "b" "c", E 3 "c" "b"] := by
  refine ⟨by decide, by decide, ?_, by decide⟩
  exact Relation.ReflTransGen.single ⟨E 1 "a" "b", by decide, rfl, rfl⟩

/-- **C2 (amended).**  With duplicate-free node ids and a directed cycle
among the kept active edges: the order is strictly shorter than the active
node count; every kept edge whose target was scheduled has its source
strictly earlier; the omitted active nodes are exactly those with an
ancestor (possibly themselves) on a directed cycle; and the runner raises
no run-level failure — it pushes exactly one cycle-warning log line and
still issues one `runNode` call per node of the partial order. -/
theorem C2_cycle_partial_order (nodes : List NodeData) (edges : List EdgeData)
    (exec : Exec) (hnd : (nodes.map NodeData.id).Nodup)
    (hcyc : ∃ x, Relation.TransGen (EStep (activeKept nodes edges)) x x) :
    (activeOrder nodes edges).length < (activeGraph nodes edges).1.length ∧
    (∀ e ∈ activeKept nodes edges, e.target ∈ activeOrder nodes edges →
      ∃ i j, ∃ hi : i < (activeOrder nodes edges).length,
        ∃ hj : j < (activeOrder nodes edges).length,
        i < j ∧ (activeOrder nodes edges)[i] = e.source ∧
          (activeOrder nodes edges)[j] = e.target) ∧
    (∀ x ∈ activeIds nodes edges, (x ∉ activeOrder nodes edges ↔
      ∃ c, Relation.TransGen (EStep (activeKept nodes edges)) c c ∧
        Relation.ReflTransGen (EStep (activeKept nodes edges)) c x)) ∧
    (runPipeline nodes edges exec).logs.count cycleWarning = 1 ∧
    (runPipeline nodes edges exec).calls.map Prod.fst = activeOrder nodes edges := by
  have handnd : (activeIds nodes edges).Nodup := activeIds_nodup nodes edges hnd
  obtain ⟨indeg', hinv⟩ :=
    topoOrder_spec (activeGraph nodes edges).1 (activeGraph nodes edges).2 handnd
  have hes := filteredEdges_endpoints (activeIds nodes edges) (activeGraph nodes edges).2
  have hrnodup : (activeOrder nodes edges).Nodup := by simpa using hinv.nodup
  obtain ⟨x0, hx0⟩ := hcyc
  have hx0ids : x0 ∈ activeIds nodes edges := by
    cases hx0 with
    | single h =>
      obtain ⟨e, he, hs, ht⟩ := h
      rw [← hs]
      exact (hes e he).1
    | tail h1 h2 =>
      obtain ⟨e, he, hs, ht⟩ := h2
      rw [← ht]
      exact (hes e he).2
  have hsubperm : (activeOrder nodes edges).Subperm (activeIds nodes edges) :=
    List.subperm_of_subset hrnodup (fun x hx => hinv.order_sub x hx)
  have hlen_le := hsubperm.length_le
  have hlt : (activeOrder nodes edges).length < (activeIds nodes edges).length := by
    rcases lt_or_eq_of_le hlen_le with h | h
    · exact h
    · exfalso
      have hperm : (activeOrder nodes edges).Perm (activeIds nodes edges) :=
        List.Subperm.perm_of_length_le hsubperm (le_of_eq h.symm)
      have hx0r : x0 ∈ activeOrder nodes edges := hperm.mem_iff.mpr hx0ids
      exact absurd (transGen_lt hinv hrnodup hx0 hx0r).2 (lt_irrefl _)
  have hlenmap : (activeIds nodes edges).length = (activeGraph nodes edges).1.length :=
    List.length_map _ _
  refine ⟨by omega, ?_, ?_, ?_⟩
  · intro e he htr
    exact sorted_positions hinv he htr
  · intro x hxids
    constructor
    · intro hxno
      have hxU : x ∈ (activeIds nodes edges).toFinset.filter
          (fun y => y ∉ activeOrder nodes edges) := by
        rw [Finset.mem_filter, List.mem_toFinset]
        exact ⟨hxids, hxno⟩
      have hpredU : ∀ y ∈ (activeIds nodes edges).toFinset.filter
          (fun y => y ∉ activeOrder nodes edges),
          ∃ z ∈ (activeIds nodes edges).toFinset.filter
            (fun y => y ∉ activeOrder nodes edges),
            EStep (activeKept nodes edges) z y := by
        intro y hy
        rw [Finset.mem_filter, List.mem_toFinset] at hy
        obtain ⟨z, hz1, hz2, hz3⟩ := omitted_has_omitted_pred hes hinv hy.1 hy.2
        refine ⟨z, ?_, hz3⟩
        rw [Finset.mem_filter, List.mem_toFinset]
        exact ⟨hz1, hz2⟩
      exact chain_cycle _ _ x hxU hpredU
    · rintro ⟨c, hc, hcx⟩ hxr
      rcases Relation.reflTransGen_iff_eq_or_transGen.mp hcx with hxc | htg
      · rw [hxc] at hxr
        exact absurd (transGen_lt hinv hrnodup hc hxr).2 (lt_irrefl _)
      · have hcr : c ∈ activeOrder nodes edges := (transGen_lt hinv hrnodup htg hxr).1
        exact absurd (transGen_lt hinv hrnodup hc hcr).2 (lt_irrefl _)
  · have hlen0 : ¬ (activeGraph nodes edges).1.length = 0 := by
      intro h0
      have : (activeIds nodes edges).length = 0 := by omega
      rw [List.length_eq_zero] at this
      rw [this] at hx0ids
      exact absurd hx0ids (List.not_mem_nil x0)
    have hword : (topoOrder (activeGraph nodes edges).1 (activeGraph nodes edges).2).length ≠
        (activeGraph nodes edges).1.length := by
      have : (activeOrder nodes edges).length <
          (activeGraph nodes edges).1.length := by omega
      unfold activeOrder at this
      omega
    have hrp : runPipeline nodes edges exec =
        (topoOrder (activeGraph nodes edges).1 (activeGraph nodes edges).2).foldl
          (runNodeStep exec nodes (upstreamOf (activeGraph nodes edges).2))
          { logs := [cycleWarning], lastOutputs := [], calls := [] } := by
      simp only [runPipeline]
      rw [if_neg hlen0, if_pos hword]
    constructor
    · rw [hrp]
      obtain ⟨extra, hlogs, hprop⟩ :=
        runLoop_logs exec nodes (upstreamOf (activeGraph nodes edges).2)
          (topoOrder (activeGraph nodes edges).1 (activeGraph nodes edges).2)
          { logs := [cycleWarning], lastOutputs := [], calls := [] }
      rw [hlogs]
      rw [List.count_append]
      have h1 : List.count cycleWarning [cycleWarning] = 1 := by simp
      have h2 : extra.count cycleWarning = 0 := by
        rw [List.count_eq_zero]
        intro hmem
        obtain ⟨s, hs⟩ := hprop cycleWarning hmem rfl
        exact cycleWarning_not_cross s hs.symm
      rw [h1, h2]
    · rw [hrp]
      have := runLoop_calls_map exec nodes (upstreamOf (activeGraph nodes edges).2)
        (topoOrder (activeGraph nodes edges).1 (activeGraph nodes edges).2)
        { logs := [cycleWarning], lastOutputs := [], calls := [] }
      rw [this]
      rfl

/-- Witness for C2 on the graph `a→b, b→c, c→b` with an always-succeeding
executor: the run pushes exactly one cycle-warning line. -/
theorem C2_cycle_partial_order_witness :
    (runPipeline [N "a", N "b", N "c"] [E 1 "a" "b", E 2 "b" "c", E 3 "c" "b"]
      (fun _ _ _ _ => .response true none none [] [])).logs.count cycleWarning = 1 :=
  (C2_cycle_partial_order [N "a", N "b", N "c"] [E 1 "a" "b", E 2 "b" "c", E 3 "c" "b"]
    (fun _ _ _ _ => .response true none none [] []) (by decide)
    ⟨"b", Relation.TransGen.head ⟨E 2 "b" "c", by decide, rfl, rfl⟩
      (Relation.TransGen.single ⟨E 3 "c" "b", by decide, rfl, rfl⟩)⟩).2.2.2.1

/-! ### `lastOutputs` and inputs bookkeeping -/

theorem lookup_cons_ne {b : Type} (p : String × b) (rest : List (String × b))
    (Nid : String) (h : (Nid == p.1) = false) :
    List.lookup Nid (p :: rest) = List.lookup Nid rest := by
  cases p with
  | mk a w =>
    simp only [List.lookup]
    simp only at h
    rw [h]

theorem lookup_cons_self {b : Type} (a : String) (w : b) (rest : List (String × b)) :
    List.lookup a ((a, w) :: rest) = some w := by
  simp only [List.lookup, beq_self_eq_true]

theorem lookup_map_replace (rest : List (String × JsonVal)) (k Nid : String) (v : JsonVal)
    (hne : (Nid == k) = false) :
    List.lookup Nid (rest.map (fun p => if p.1 == k then (k, v) else p)) =
      List.lookup Nid rest := by
  induction rest with
  | nil => rfl
  | cons p rest ih =>
    rw [List.map_cons]
    by_cases hp : p.1 = k
    · have hb : (p.1 == k) = true := by simp [hp]
      rw [if_pos hb]
      rw [lookup_cons_ne _ _ _ hne]
      rw [lookup_cons_ne p rest Nid (by rw [hp]; exact hne)]
      exact ih
    · have hb : (p.1 == k) = false := beq_eq_false_iff_ne.mpr hp
      rw [if_neg (by rw [hb]; exact Bool.false_ne_true)]
      cases hq : (Nid == p.1) with
      | false =>
        rw [lookup_cons_ne _ _ _ hq, lookup_cons_ne _ _ _ hq]
        exact ih
      | true =>
        have hq2 : Nid = p.1 := by simpa using hq
        cases p with
        | mk a w =>
          simp only at hq2
          rw [hq2]
          rw [lookup_cons_self, lookup_cons_self]

theorem lookup_map_replace_self (rest : List (String × JsonVal)) (k : String) (v : JsonVal)
    (hany : rest.any (fun p => p.1 == k) = true) :
    List.lookup k (rest.map (fun p => if p.1 == k then (k, v) else p)) = some v := by
  induction rest with
  | nil => cases hany
  | cons p rest ih =>
    rw [List.map_cons]
    by_cases hp : p.1 = k
    · have hb : (p.1 == k) = true := by simp [hp]
      rw [if_pos hb]
      rw [lookup_cons_self]
    · have hb : (p.1 == k) = false := beq_eq_false_iff_ne.mpr hp
      rw [if_neg (by rw [hb]; exact Bool.false_ne_true)]
      rw [lookup_cons_ne p _ k (beq_eq_false_iff_ne.mpr (fun he => hp he.symm))]
      apply ih
      rw [List.any_cons, hb] at hany
      simpa using hany

theorem lookup_none_of_any_false (m : List (String × JsonVal)) (k : String)
    (h : m.any (fun p => p.1 == k) = false) : m.lookup k = none := by
  induction m with
  | nil => rfl
  | cons p rest ih =>
    rw [List.any_cons] at h
    rw [Bool.or_eq_false_iff] at h
    rw [lookup_cons_ne p rest k (by rw [beq_eq_false_iff_ne] at h ⊢
                                    exact fun he => h.1 he.symm)]
    exact ih h.2

theorem lookup_append_single_ne (m : List (String × JsonVal)) (k Nid : String) (v : JsonVal)
    (h : (Nid == k) = false) :
    List.lookup Nid (m ++ [(k, v)]) = List.lookup Nid m := by
  induction m with
  | nil =>
    rw [List.nil_append]
    rw [lookup_cons_ne _ _ _ h]
  | cons p rest ih =>
    rw [List.cons_append]
    cases hq : (Nid == p.1) with
    | false =>
      rw [lookup_cons_ne _ _ _ hq, lookup_cons_ne _ _ _ hq]
      exact ih
    | true =>
      have hq2 : Nid = p.1 := by simpa using hq
      cases p with
      | mk a w =>
        simp only at hq2
        rw [hq2, lookup_cons_self, lookup_cons_self]

theorem lookup_append_single_self (m : List (String × JsonVal)) (k : String) (v : JsonVal)
    (hnone : m.lookup k = none) :
    List.lookup k (m ++ [(k, v)]) = some v := by
  induction m with
  | nil =>
    rw [List.nil_append, lookup_cons_self]
  | cons p rest ih =>
    rw [List.cons_append]
    cases hq : (k == p.1) with
    | false =>
      rw [lookup_cons_ne _ _ _ hq]
      apply ih
      rw [lookup_cons_ne _ _ _ hq] at hnone
      exact hnone
    | true =>
      exfalso
      have hq2 : k = p.1 := by simpa using hq
      cases p with
      | mk a w =>
        simp only at hq2
        rw [hq2] at hnone
        rw [lookup_cons_self] at hnone
        cases hnone

theorem setAssoc_lookup_ne (m : List (String × JsonVal)) (k Nid : String) (v : JsonVal)
    (h : k ≠ Nid) : (setAssoc m k v).lookup Nid = m.lookup Nid := by
  unfold setAssoc
  have hbne : (Nid == k) = false := beq_eq_false_iff_ne.mpr (fun he => h he.symm)
  split
  · exact lookup_map_replace m k Nid v hbne
  · exact lookup_append_single_ne m k Nid v hbne

theorem setAssoc_lookup_self (m : List (String × JsonVal)) (k : String) (v : JsonVal) :
    (setAssoc m k v).lookup k = some v := by
  unfold setAssoc
  split
  · rename_i hany
    exact lookup_map_replace_self m k v hany
  · rename_i hany
    rw [Bool.not_eq_true] at hany
    exact lookup_append_single_self m k v (lookup_none_of_any_false m k hany)

theorem buildInputs_lookup_none (l : List String) (outs : List (String × JsonVal))
    (Nid : String) (h : outs.lookup Nid = none) :
    (buildInputs l outs).lookup Nid = none := by
  induction l with
  | nil => rfl
  | cons up rest ih =>
    unfold buildInputs
    rw [List.filterMap_cons]
    cases hl : outs.lookup up with
    | none =>
      simp only [Option.map_none']
      exact ih
    | some v =>
      simp only [Option.map_some']
      rw [List.lookup_cons]
      have hne : (Nid == up) = false := by
        rw [beq_eq_false_iff_ne]
        intro he
        rw [← he] at hl
        rw [hl] at h
        cases h
      rw [hne]
      exact ih

theorem buildInputs_lookup_mem (l : List String) (outs : List (String × JsonVal))
    (Nid : String) (v : JsonVal) (hm : Nid ∈ l) (h : outs.lookup Nid = some v) :
    (buildInputs l outs).lookup Nid = some v := by
  induction l with
  | nil => cases hm
  | cons up rest ih =>
    unfold buildInputs
    rw [List.filterMap_cons]
    by_cases hup : up = Nid
    · rw [hup, h]
      simp only [Option.map_some']
      rw [List.lookup_cons]
      simp
    · cases hl : outs.lookup up with
      | none =>
        simp only [Option.map_none']
        rcases List.mem_cons.mp hm with he | he
        · exact absurd he.symm hup
        · exact ih he
      | some w =>
        simp only [Option.map_some']
        rw [List.lookup_cons]
        have hne : (Nid == up) = false := beq_eq_false_iff_ne.mpr (fun he => hup he.symm)
        rw [hne]
        rcases List.mem_cons.mp hm with he | he
        · exact absurd he.symm hup
        · exact ih he

theorem runNodeStep_lastOutputs (exec : Exec) (nodes : List NodeData)
    (ups : String → List String) (st : RunState) (id : String) :
    (runNodeStep exec nodes ups st id).lastOutputs = st.lastOutputs ∨
    ((∃ out, (runNodeStep exec nodes ups st id).lastOutputs =
        setAssoc st.lastOutputs id out) ∧
      ¬ (exec id ((nodes.find? (fun n => n.id == id)).getD (N id)).ntype
          (((nodes.find? (fun n => n.id == id)).getD (N id)).args.getD (.obj []))
          (buildInputs (ups id) st.lastOutputs)).failed) := by
  simp only [runNodeStep]
  split
  · left
    rfl
  · rename_i ok output error rlogs stdout heq
    by_cases hok : ok = true
    · right
      constructor
      · exact ⟨jsOutput output, by rw [if_pos hok]⟩
      · rw [heq]
        unfold ExecResult.failed
        rw [hok]
        simp
    · left
      rw [if_neg hok]

theorem runNodeStep_failure_log (exec : Exec) (nodes : List NodeData)
    (ups : String → List String) (st : RunState) (id : String)
    (hfail : (exec id ((nodes.find? (fun n => n.id == id)).getD (N id)).ntype
        (((nodes.find? (fun n => n.id == id)).getD (N id)).args.getD (.obj []))
        (buildInputs (ups id) st.lastOutputs)).failed) :
    (⟨id, false, failureLine (exec id
        ((nodes.find? (fun n => n.id == id)).getD (N id)).ntype
        (((nodes.find? (fun n => n.id == id)).getD (N id)).args.getD (.obj []))
        (buildInputs (ups id) st.lastOutputs))⟩ : LogLine) ∈
      (runNodeStep exec nodes ups st id).logs := by
  simp only [runNodeStep]
  split
  · rename_i msg heq
    rw [heq]
    unfold failureLine
    simp
  · rename_i ok output error rlogs stdout heq
    rw [heq] at hfail
    unfold ExecResult.failed at hfail
    rw [if_neg (by rw [hfail]; simp)]
    rw [heq]
    unfold failureLine
    simp

theorem runLoop_calls_extend (exec : Exec) (nodes : List NodeData)
    (ups : String → List String) :
    ∀ (order : List String) (st : RunState),
      ∃ more, (order.foldl (runNodeStep exec nodes ups) st).calls = st.calls ++ more := by
  intro order
  induction order with
  | nil => intro st; exact ⟨[], by simp⟩
  | cons id rest ih =>
    intro st
    obtain ⟨more, hmore⟩ := ih (runNodeStep exec nodes ups st id)
    refine ⟨[(id, buildInputs (ups id) st.lastOutputs)] ++ more, ?_⟩
    rw [List.foldl_cons, hmore, runNodeStep_calls]
    simp

/-- **C3.**  If the executor fails at node `Nid` (exception, or non-`ok`
response) then: the run pushes the failure log line carrying the error
text for the inputs actually posted; `lastOutputs` has no entry for `Nid`;
the runner still issues exactly one `runNode` call per node of the order
(nothing is aborted); and no call's inputs carry the predecessor key
`Nid`. -/
theorem C3_failed_node_isolated (nodes : List NodeData) (edges : List EdgeData)
    (exec : Exec) (Nid : String)
    (hfail : ∀ t a inps, (exec Nid t a inps).failed)
    (hN : Nid ∈ activeOrder nodes edges) :
    (∃ inps, (Nid, inps) ∈ (runPipeline nodes edges exec).calls ∧
      (⟨Nid, false, failureLine (exec Nid
          ((nodes.find? (fun n => n.id == Nid)).getD (N Nid)).ntype
          (((nodes.find? (fun n => n.id == Nid)).getD (N Nid)).args.getD (.obj []))
          inps)⟩ : LogLine) ∈ (runPipeline nodes edges exec).logs) ∧
    (runPipeline nodes edges exec).lastOutputs.lookup Nid = none ∧
    (runPipeline nodes edges exec).calls.map Prod.fst = activeOrder nodes edges ∧
    (∀ m inps, (m, inps) ∈ (runPipeline nodes edges exec).calls →
      inps.lookup Nid = none) := by
  have hlen0 : ¬ (activeGraph nodes edges).1.length = 0 := by
    intro h0
    have haN : (activeGraph nodes edges).1 = [] := List.length_eq_zero.mp h0
    have hord : activeOrder nodes edges = [] := by
      unfold activeOrder
      rw [haN]
      obtain ⟨i', hinv0⟩ := topoOrder_spec [] (activeGraph nodes edges).2 (by simp)
      cases hodr : topoOrder [] (activeGraph nodes edges).2 with
      | nil => rfl
      | cons y ys =>
        exfalso
        have hy : y ∈ topoOrder [] (activeGraph nodes edges).2 := by
          rw [hodr]
          exact List.mem_cons_self _ _
        have := hinv0.order_sub y hy
        simp at this
    rw [hord] at hN
    exact absurd hN (List.not_mem_nil Nid)
  have hrp : runPipeline nodes edges exec =
      (topoOrder (activeGraph nodes edges).1 (activeGraph nodes edges).2).foldl
        (runNodeStep exec nodes (upstreamOf (activeGraph nodes edges).2))
        { logs := if (topoOrder (activeGraph nodes edges).1
              (activeGraph nodes edges).2).length ≠ (activeGraph nodes edges).1.length
            then [cycleWarning] else [],
          lastOutputs := [], calls := [] } := by
    simp only [runPipeline]
    rw [if_neg hlen0]
  have hstepP : ∀ (st : RunState) (id : String),
      st.lastOutputs.lookup Nid = none →
      ((runNodeStep exec nodes (upstreamOf (activeGraph nodes edges).2) st id)
        |>.lastOutputs.lookup Nid) = none := by
    intro st id h
    rcases runNodeStep_lastOutputs exec nodes (upstreamOf (activeGraph nodes edges).2)
      st id with hsame | ⟨⟨out, hset⟩, hnotf⟩
    · rw [hsame]
      exact h
    · by_cases hid : id = Nid
      · exfalso
        apply hnotf
        rw [hid]
        exact hfail _ _ _
      · rw [hset, setAssoc_lookup_ne _ _ _ _ hid]
        exact h
  have hloopP : ∀ (order : List String) (st : RunState),
      st.lastOutputs.lookup Nid = none →
      (∀ p ∈ st.calls, (p.2).lookup Nid = none) →
      ((order.foldl (runNodeStep exec nodes (upstreamOf (activeGraph nodes edges).2)) st)
        |>.lastOutputs.lookup Nid) = none ∧
      ∀ p ∈ (order.foldl (runNodeStep exec nodes
          (upstreamOf (activeGraph nodes edges).2)) st).calls,
        (p.2).lookup Nid = none := by
    intro order
    induction order with
    | nil =>
      intro st h1 h2
      exact ⟨h1, h2⟩
    | cons id rest ih =>
      intro st h1 h2
      rw [List.foldl_cons]
      apply ih
      · exact hstepP st id h1
      · intro p hp
        rw [runNodeStep_calls] at hp
        rcases List.mem_append.mp hp with h | h
        · exact h2 p h
        · rw [List.mem_singleton] at h
          rw [h]
          exact buildInputs_lookup_none _ _ _ h1
  obtain ⟨l1, l2, hsplit⟩ := List.append_of_mem hN
  have hordsplit : topoOrder (activeGraph nodes edges).1 (activeGraph nodes edges).2 =
      l1 ++ Nid :: l2 := hsplit
  refine ⟨?_, ?_, ?_, ?_⟩
  · -- the failure log line and its call
    rw [hrp]
    set st0 : RunState :=
      { logs := if (topoOrder (activeGraph nodes edges).1
            (activeGraph nodes edges).2).length ≠ (activeGraph nodes edges).1.length
          then [cycleWarning] else [],
        lastOutputs := [], calls := [] } with hst0
    rw [hordsplit, List.foldl_append, List.foldl_cons]
    set st1 := l1.foldl (runNodeStep exec nodes (upstreamOf (activeGraph nodes edges).2))
      st0 with hst1
    refine ⟨buildInputs ((upstreamOf (activeGraph nodes edges).2) Nid) st1.lastOutputs,
      ?_, ?_⟩
    · obtain ⟨more, hmore⟩ := runLoop_calls_extend exec nodes
        (upstreamOf (activeGraph nodes edges).2) l2
        (runNodeStep exec nodes (upstreamOf (activeGraph nodes edges).2) st1 Nid)
      rw [hmore, runNodeStep_calls]
      rw [List.append_assoc]
      apply List.mem_append_right
      apply List.mem_append_left
      exact List.mem_singleton_self _
    · obtain ⟨extra, hextra, _⟩ := runLoop_logs exec nodes
        (upstreamOf (activeGraph nodes edges).2) l2
        (runNodeStep exec nodes (upstreamOf (activeGraph nodes edges).2) st1 Nid)
      rw [hextra]
      apply List.mem_append_left
      exact runNodeStep_failure_log exec nodes (upstreamOf (activeGraph nodes edges).2)
        st1 Nid (hfail _ _ _)
  · rw [hrp]
    exact (hloopP (topoOrder (activeGraph nodes edges).1 (activeGraph nodes edges).2)
      { logs := if (topoOrder (activeGraph nodes edges).1
            (activeGraph nodes edges).2).length ≠ (activeGraph nodes edges).1.length
          then [cycleWarning] else [],
        lastOutputs := [], calls := [] } rfl (by intro p hp; cases hp)).1
  · rw [hrp]
    have hc := runLoop_calls_map exec nodes (upstreamOf (activeGraph nodes edges).2)
      (topoOrder (activeGraph nodes edges).1 (activeGraph nodes edges).2)
      { logs := if (topoOrder (activeGraph nodes edges).1
            (activeGraph nodes edges).2).length ≠ (activeGraph nodes edges).1.length
          then [cycleWarning] else [],
        lastOutputs := [], calls := [] }
    rw [hc]
    rfl
  · intro m inps hmem
    rw [hrp] at hmem
    exact (hloopP (topoOrder (activeGraph nodes edges).1 (activeGraph nodes edges).2)
      { logs := if (topoOrder (activeGraph nodes edges).1
            (activeGraph nodes edges).2).length ≠ (activeGraph nodes edges).1.length
          then [cycleWarning] else [],
        lastOutputs := [], calls := [] } rfl (by intro p hp; cases hp)).2 (m, inps) hmem

/-- Witness for C3: in `a→b` with an executor failing on `b`, the run
still calls both nodes in order. -/
theorem C3_failed_node_isolated_witness :
    (runPipeline [N "a", N "b"] [E 1 "a" "b"]
      (fun id _ _ _ => if id = "b" then .response false none (some "boom") [] []
        else .response true none none [] [])).calls.map Prod.fst =
      activeOrder [N "a", N "b"] [E 1 "a" "b"] :=
  (C3_failed_node_isolated [N "a", N "b"] [E 1 "a" "b"]
    (fun id _ _ _ => if id = "b" then .response false none (some "boom") [] []
      else .response true none none [] []) "b"
    (fun t a inps => by simp [ExecResult.failed])
    (by decide)).2.2.1

theorem activeEdges_endpoints (nodes : List NodeData) (edges : List EdgeData) :
    ∀ e ∈ (activeGraph nodes edges).2,
      e.source ∈ activeIds nodes edges ∧ e.target ∈ activeIds nodes edges := by
  intro e he
  have he' : e ∈ edges.filter (fun e =>
      ((activeGraph nodes edges).1.map NodeData.id).contains e.source &&
      ((activeGraph nodes edges).1.map NodeData.id).contains e.target) := he
  rw [List.mem_filter, Bool.and_eq_true] at he'
  exact ⟨List.mem_of_elem_eq_true he'.2.1, List.mem_of_elem_eq_true he'.2.2⟩

theorem mem_take_of_indexOf_lt {l : List String} {x : String} {n : Nat}
    (hx : x ∈ l) (h : l.indexOf x < n) : x ∈ l.take n := by
  have h1 : l.indexOf x < l.length := List.indexOf_lt_length.mpr hx
  have h2 : l[l.indexOf x] = x := List.getElem_indexOf h1
  have h3 : l.indexOf x < (l.take n).length := by
    rw [List.length_take]
    omega
  have h4 : (l.take n)[l.indexOf x] = x := by
    rw [List.getElem_take l]
    exact h2
  rw [← h4]
  exact List.getElem_mem h3

theorem runNodeStep_success_none (exec : Exec) (nodes : List NodeData)
    (ups : String → List String) (st : RunState) (Nid : String)
    (hsucc : ∀ t a inps, ∃ er lg sd, exec Nid t a inps = .response true none er lg sd) :
    (runNodeStep exec nodes ups st Nid).lastOutputs =
      setAssoc st.lastOutputs Nid (.obj []) := by
  obtain ⟨er, lg, sd, hres⟩ := hsucc
    ((nodes.find? (fun n => n.id == Nid)).getD (N Nid)).ntype
    (((nodes.find? (fun n => n.id == Nid)).getD (N Nid)).args.getD (.obj []))
    (buildInputs (ups Nid) st.lastOutputs)
  simp only [runNodeStep]
  rw [hres]
  rfl

theorem runNodeStep_preserves_entry (exec : Exec) (nodes : List NodeData)
    (ups : String → List String) (st : RunState) (id Nid : String)
    (hsucc : ∀ t a inps, ∃ er lg sd, exec Nid t a inps = .response true none er lg sd)
    (h : st.lastOutputs.lookup Nid = some (.obj [])) :
    (runNodeStep exec nodes ups st id).lastOutputs.lookup Nid = some (.obj []) := by
  by_cases hid : id = Nid
  · rw [hid, runNodeStep_success_none exec nodes ups st Nid hsucc]
    exact setAssoc_lookup_self _ _ _
  · rcases runNodeStep_lastOutputs exec nodes ups st id with hsame | ⟨⟨out, hset⟩, _⟩
    · rw [hsame]
      exact h
    · rw [hset, setAssoc_lookup_ne _ _ _ _ hid]
      exact h

theorem runLoop_preserves_entry (exec : Exec) (nodes : List NodeData)
    (ups : String → List String) (Nid : String)
    (hsucc : ∀ t a inps, ∃ er lg sd, exec Nid t a inps = .response true none er lg sd) :
    ∀ (order : List String) (st : RunState),
      st.lastOutputs.lookup Nid = some (.obj []) →
      ((order.foldl (runNodeStep exec nodes ups) st) |>.lastOutputs.lookup Nid) =
        some (.obj []) := by
  intro order
  induction order with
  | nil =>
    intro st h
    exact h
  | cons id rest ih =>
    intro st h
    rw [List.foldl_cons]
    exact ih _ (runNodeStep_preserves_entry exec nodes ups st id Nid hsucc h)

theorem runLoop_calls_shape (exec : Exec) (nodes : List NodeData)
    (ups : String → List String) :
    ∀ (order : List String) (st : RunState),
      ∃ cs, (order.foldl (runNodeStep exec nodes ups) st).calls = st.calls ++ cs ∧
        cs.map Prod.fst = order := by
  intro order st
  obtain ⟨more, hmore⟩ := runLoop_calls_extend exec nodes ups order st
  refine ⟨more, hmore, ?_⟩
  have hmap := runLoop_calls_map exec nodes ups order st
  rw [hmore, List.map_append] at hmap
  exact List.append_cancel_left hmap

/-- **C10.**  If the executor answers `ok` with no `output` field at node
`Nid`, the runner stores the empty object `{}` as `Nid`'s entry in
`lastOutputs`, and a node `m` fed by an active edge `Nid→m` that gets
scheduled receives `{}` for the predecessor key `Nid` in its posted
inputs — distinguishable from a failed predecessor, which contributes no
entry at all (C3). -/
theorem C10_missing_output_stores_empty (nodes : List NodeData) (edges : List EdgeData)
    (exec : Exec) (Nid m : String) (e : EdgeData)
    (hnd : (nodes.map NodeData.id).Nodup)
    (hsucc : ∀ t a inps, ∃ er lg sd, exec Nid t a inps = .response true none er lg sd)
    (he : e ∈ (activeGraph nodes edges).2) (hsrc : e.source = Nid) (htgt : e.target = m)
    (hm : m ∈ activeOrder nodes edges) :
    (runPipeline nodes edges exec).lastOutputs.lookup Nid = some (.obj []) ∧
    (∀ inps, (m, inps) ∈ (runPipeline nodes edges exec).calls →
      inps.lookup Nid = some (.obj [])) := by
  have handnd := activeIds_nodup nodes edges hnd
  obtain ⟨indeg', hinv⟩ :=
    topoOrder_spec (activeGraph nodes edges).1 (activeGraph nodes edges).2 handnd
  have hrnodup : (activeOrder nodes edges).Nodup := by simpa using hinv.nodup
  have hend := activeEdges_endpoints nodes edges e he
  have hkept : e ∈ activeKept nodes edges := by
    unfold activeKept filteredEdges
    rw [List.mem_filter]
    refine ⟨he, ?_⟩
    rw [Bool.and_eq_true]
    exact ⟨List.elem_eq_true_of_mem hend.1, List.elem_eq_true_of_mem hend.2⟩
  have hstep : EStep (activeKept nodes edges) Nid m := ⟨e, hkept, hsrc, htgt⟩
  obtain ⟨hNmem, hNlt⟩ := estep_lt hinv hrnodup hstep hm
  have hmids : m ∈ activeIds nodes edges := hinv.order_sub m hm
  have hlen0 : ¬ (activeGraph nodes edges).1.length = 0 := by
    intro h0
    have haN : (activeGraph nodes edges).1 = [] := List.length_eq_zero.mp h0
    unfold activeIds at hmids
    rw [haN] at hmids
    simp at hmids
  have hrp : runPipeline nodes edges exec =
      (topoOrder (activeGraph nodes edges).1 (activeGraph nodes edges).2).foldl
        (runNodeStep exec nodes (upstreamOf (activeGraph nodes edges).2))
        { logs := if (topoOrder (activeGraph nodes edges).1
              (activeGraph nodes edges).2).length ≠ (activeGraph nodes edges).1.length
            then [cycleWarning] else [],
          lastOutputs := [], calls := [] } := by
    simp only [runPipeline]
    rw [if_neg hlen0]
  constructor
  · -- the stored entry for Nid is {}
    rw [hrp]
    obtain ⟨a1, a2, hsplitN⟩ := List.append_of_mem hNmem
    have hsplitN' : topoOrder (activeGraph nodes edges).1 (activeGraph nodes edges).2 =
        a1 ++ Nid :: a2 := hsplitN
    rw [hsplitN', List.foldl_append, List.foldl_cons]
    apply runLoop_preserves_entry exec nodes (upstreamOf (activeGraph nodes edges).2)
      Nid hsucc
    rw [runNodeStep_success_none exec nodes (upstreamOf (activeGraph nodes edges).2)
      _ Nid hsucc]
    exact setAssoc_lookup_self _ _ _
  · -- the inputs posted for m carry the {} entry
    obtain ⟨k1, k2, hsplit⟩ := List.append_of_mem hm
    have hndk : (k1 ++ m :: k2).Nodup := by
      rw [← hsplit]
      exact hrnodup
    have hmk1 : m ∉ k1 := by
      intro hmem
      have hdisj := List.disjoint_of_nodup_append hndk
      exact hdisj hmem (List.mem_cons_self m k2)
    have hmk2 : m ∉ k2 := by
      have h2 := (List.nodup_append.mp hndk).2.1
      rw [List.nodup_cons] at h2
      exact h2.1
    have hsplitT : topoOrder (activeGraph nodes edges).1 (activeGraph nodes edges).2 =
        k1 ++ m :: k2 := hsplit
    have hidxm : (topoOrder (activeGraph nodes edges).1
        (activeGraph nodes edges).2).indexOf m = k1.length := by
      rw [hsplitT, List.indexOf_append_of_not_mem hmk1]
      simp
    have hNink1 : Nid ∈ k1 := by
      have h1 : Nid ∈ (topoOrder (activeGraph nodes edges).1
          (activeGraph nodes edges).2).take k1.length :=
        mem_take_of_indexOf_lt hNmem (by omega)
      rw [hsplitT] at h1
      rw [show (k1 ++ m :: k2).take k1.length = k1 from List.take_left k1 (m :: k2)] at h1
      exact h1
    obtain ⟨p1, p2, hk1⟩ := List.append_of_mem hNink1
    intro inps hin
    rw [hrp] at hin
    have horder : topoOrder (activeGraph nodes edges).1 (activeGraph nodes edges).2 =
        k1 ++ m :: k2 := hsplit
    set st0 : RunState :=
      { logs := if (topoOrder (activeGraph nodes edges).1
            (activeGraph nodes edges).2).length ≠ (activeGraph nodes edges).1.length
          then [cycleWarning] else [],
        lastOutputs := [], calls := [] } with hst0
    rw [horder, List.foldl_append, List.foldl_cons] at hin
    set stk1 := k1.foldl (runNodeStep exec nodes (upstreamOf (activeGraph nodes edges).2))
      st0 with hstk1
    obtain ⟨cs2, hcs2, hcs2map⟩ := runLoop_calls_shape exec nodes
      (upstreamOf (activeGraph nodes edges).2) k2
      (runNodeStep exec nodes (upstreamOf (activeGraph nodes edges).2) stk1 m)
    rw [hcs2, runNodeStep_calls] at hin
    obtain ⟨cs1, hcs1, hcs1map⟩ := runLoop_calls_shape exec nodes
      (upstreamOf (activeGraph nodes edges).2) k1 st0
    rw [← hstk1] at hcs1
    rw [hcs1] at hin
    have hst0calls : st0.calls = [] := rfl
    rw [hst0calls, List.nil_append] at hin
    have hQ : stk1.lastOutputs.lookup Nid = some (.obj []) := by
      rw [hstk1, hk1, List.foldl_append, List.foldl_cons]
      apply runLoop_preserves_entry exec nodes (upstreamOf (activeGraph nodes edges).2)
        Nid hsucc
      rw [runNodeStep_success_none exec nodes (upstreamOf (activeGraph nodes edges).2)
        _ Nid hsucc]
      exact setAssoc_lookup_self _ _ _
    have hups : Nid ∈ upstreamOf (activeGraph nodes edges).2 m := by
      unfold upstreamOf
      rw [List.mem_map]
      refine ⟨e, ?_, hsrc⟩
      rw [List.mem_filter]
      exact ⟨he, by simp [htgt]⟩
    rcases List.mem_append.mp hin with hin1 | hin2
    · rcases List.mem_append.mp hin1 with hin1a | hin1b
      · exfalso
        have : m ∈ cs1.map Prod.fst := List.mem_map_of_mem Prod.fst hin1a
        rw [hcs1map] at this
        exact hmk1 this
      · rw [List.mem_singleton] at hin1b
        have hinps : inps = buildInputs
            ((upstreamOf (activeGraph nodes edges).2) m) stk1.lastOutputs := by
          have := congrArg Prod.snd hin1b
          simpa using this
        rw [hinps]
        exact buildInputs_lookup_mem _ _ _ _ hups hQ
    · exfalso
      have : m ∈ cs2.map Prod.fst := List.mem_map_of_mem Prod.fst hin2
      rw [hcs2map] at this
      exact hmk2 this

/-- Witness for C10: in `a→b` with an executor that answers `ok` without
an output field, the run stores `{}` for `a`. -/
theorem C10_missing_output_stores_empty_witness :
    (runPipeline [N "a", N "b"] [E 1 "a" "b"]
      (fun _ _ _ _ => .response true none none [] [])).lastOutputs.lookup "a" =
      some (.obj []) :=
  (C10_missing_output_stores_empty [N "a", N "b"] [E 1 "a" "b"]
    (fun _ _ _ _ => .response true none none [] []) "a" "b" (E 1 "a" "b")
    (by decide) (fun _ _ _ => ⟨none, [], [], rfl⟩)
    (by decide) rfl rfl (by decide)).1

/-! ### The reference scheduler coincides with `topoOrder` -/

theorem refDec_keys (t : List (String × Int)) (v : String) :
    (refDec t v).map Prod.fst = t.map Prod.fst := by
  unfold refDec
  induction t with
  | nil => rfl
  | cons p rest ih =>
    rw [List.map_cons, List.map_cons, List.map_cons]
    by_cases hp : p.1 = v
    · have hb : (p.1 == v) = true := by simp [hp]
      rw [if_pos hb]
      exact congrArg (List.cons p.1) ih
    · have hb : (p.1 == v) = false := beq_eq_false_iff_ne.mpr hp
      rw [if_neg (by rw [hb]; exact Bool.false_ne_true)]
      exact congrArg (List.cons p.1) ih

theorem refLookup_refDec_ne (t : List (String × Int)) (v x : String) (h : x ≠ v) :
    refLookup (refDec t v) x = refLookup t x := by
  unfold refLookup refDec
  induction t with
  | nil => rfl
  | cons p rest ih =>
    rw [List.map_cons]
    by_cases hp : p.1 = v
    · have hb : (p.1 == v) = true := by simp [hp]
      rw [if_pos hb]
      have hxp : (x == p.1) = false := beq_eq_false_iff_ne.mpr (by rw [hp]; exact h)
      rw [lookup_cons_ne _ _ _ (by simpa using hxp), lookup_cons_ne _ _ _ hxp]
      exact ih
    · have hb : (p.1 == v) = false := beq_eq_false_iff_ne.mpr hp
      rw [if_neg (by rw [hb]; exact Bool.false_ne_true)]
      cases hq : (x == p.1) with
      | false =>
        rw [lookup_cons_ne _ _ _ hq, lookup_cons_ne _ _ _ hq]
        exact ih
      | true =>
        have hq2 : x = p.1 := by simpa using hq
        cases p with
        | mk a w =>
          simp only at hq2
          rw [hq2, lookup_cons_self, lookup_cons_self]

theorem refLookup_refDec_self (t : List (String × Int)) (v : String)
    (h : v ∈ t.map Prod.fst) :
    refLookup (refDec t v) v = refLookup t v - 1 := by
  unfold refLookup refDec
  induction t with
  | nil => cases h
  | cons p rest ih =>
    rw [List.map_cons]
    by_cases hp : p.1 = v
    · have hb : (p.1 == v) = true := by simp [hp]
      rw [if_pos hb]
      cases p with
      | mk a w =>
        simp only at hp
        rw [hp]
        rw [lookup_cons_self, lookup_cons_self]
        rfl
    · have hb : (p.1 == v) = false := beq_eq_false_iff_ne.mpr hp
      rw [if_neg (by rw [hb]; exact Bool.false_ne_true)]
      have hvp : (v == p.1) = false := beq_eq_false_iff_ne.mpr (fun he => hp he.symm)
      rw [lookup_cons_ne _ _ _ hvp, lookup_cons_ne _ _ _ hvp]
      apply ih
      rw [List.map_cons, List.mem_cons] at h
      rcases h with h | h
      · exact absurd h.symm hp
      · exact h

theorem refRelax_eq (vs : List String) :
    ∀ (t : List (String × Int)) (indeg : String → Int) (q : List String),
      (∀ v ∈ vs, v ∈ t.map Prod.fst) →
      (∀ x, refLookup t x = indeg x) →
      ((refRelax t q vs).2 = (relax indeg q vs).2 ∧
       (∀ x, refLookup (refRelax t q vs).1 x = (relax indeg q vs).1 x) ∧
       (refRelax t q vs).1.map Prod.fst = t.map Prod.fst) := by
  induction vs with
  | nil =>
    intro t indeg q _ hcoup
    exact ⟨rfl, hcoup, rfl⟩
  | cons v vs ih =>
    intro t indeg q hkeys hcoup
    simp only [refRelax, relax]
    have hv : v ∈ t.map Prod.fst := hkeys v (List.mem_cons_self _ _)
    have hcoup2 : ∀ x, refLookup (refDec t v) x =
        (fun y => if y = v then indeg v - 1 else indeg y) x := by
      intro x
      by_cases hx : x = v
      · rw [hx]
        simp only [if_pos rfl, if_true]
        rw [refLookup_refDec_self t v hv, hcoup v]
      · simp only [if_neg hx]
        rw [refLookup_refDec_ne t v x hx, hcoup x]
    have hkeys2 : ∀ w ∈ vs, w ∈ (refDec t v).map Prod.fst := by
      intro w hw
      rw [refDec_keys]
      exact hkeys w (List.mem_cons_of_mem _ hw)
    have hqeq : (if refLookup (refDec t v) v = 0 then q ++ [v] else q) =
        (if indeg v - 1 = 0 then q ++ [v] else q) := by
      rw [hcoup2 v]
      simp
    rw [hqeq]
    obtain ⟨h1, h2, h3⟩ := ih (refDec t v)
      (fun y => if y = v then indeg v - 1 else indeg y)
      (if indeg v - 1 = 0 then q ++ [v] else q) hkeys2 hcoup2
    exact ⟨h1, h2, h3.trans (refDec_keys t v)⟩

theorem refLoop_eq (es : List EdgeData) (ids : List String)
    (hsub : ∀ u x, x ∈ adjOf es u → x ∈ ids) :
    ∀ (fuel : Nat) (q : List String) (t : List (String × Int)) (indeg : String → Int)
      (order : List String),
      t.map Prod.fst = ids → (∀ x, refLookup t x = indeg x) →
      refLoop es fuel q t order = (topoLoop (adjOf es) fuel q indeg order).2.2 := by
  intro fuel
  induction fuel with
  | zero =>
    intro q t indeg order _ _
    rfl
  | succ fuel ih =>
    intro q t indeg order hkeys hcoup
    cases q with
    | nil => rfl
    | cons u qs =>
      simp only [refLoop, topoLoop]
      have hsa : refSucc es u = adjOf es u := rfl
      rw [hsa]
      have hkeys1 : ∀ v ∈ adjOf es u, v ∈ t.map Prod.fst := by
        intro v hv
        rw [hkeys]
        exact hsub u v hv
      obtain ⟨h1, h2, h3⟩ := refRelax_eq (adjOf es u) t indeg qs hkeys1 hcoup
      rw [h1]
      exact ih _ _ _ _ (h3.trans hkeys) h2

theorem refIndegTable_keys (ids : List String) (es : List EdgeData) :
    (refIndegTable ids es).map Prod.fst = ids := by
  unfold refIndegTable
  induction ids with
  | nil => rfl
  | cons a t ih =>
    rw [List.map_cons, List.map_cons]
    exact congrArg (List.cons a) ih

theorem refIndegTable_coup (ids : List String) (es : List EdgeData)
    (htg : ∀ e ∈ es, e.target ∈ ids) :
    ∀ x, refLookup (refIndegTable ids es) x = indeg0 es x := by
  intro x
  by_cases hx : x ∈ ids
  · clear htg
    unfold refLookup refIndegTable indeg0
    induction ids with
    | nil => cases hx
    | cons id rest ih =>
      rw [List.map_cons]
      by_cases hid : id = x
      · rw [hid, lookup_cons_self]
        rfl
      · rw [lookup_cons_ne _ _ _ (beq_eq_false_iff_ne.mpr (fun he => hid he.symm))]
        rcases List.mem_cons.mp hx with h | h
        · exact absurd h.symm hid
        · exact ih h
  · have h1 : (refIndegTable ids es).lookup x = none := by
      clear htg
      unfold refIndegTable
      induction ids with
      | nil => rfl
      | cons id rest ih =>
        rw [List.map_cons]
        have hne : id ≠ x := fun he => hx (by rw [← he]; exact List.mem_cons_self _ _)
        rw [lookup_cons_ne _ _ _ (beq_eq_false_iff_ne.mpr (fun he => hne he.symm))]
        exact ih (fun hmem => hx (List.mem_cons_of_mem _ hmem))
    have h2 : indeg0 es x = 0 := by
      unfold indeg0
      have : es.countP (fun e => e.target = x) = 0 := by
        rw [List.countP_eq_zero]
        intro e he hp
        have ht : e.target = x := by simpa using hp
        exact hx (ht ▸ htg e he)
      rw [this]
      rfl
    rw [h2]
    unfold refLookup
    rw [h1]
    rfl

/-- **C4.**  `topoOrder` computes exactly the reference Kahn sequence with
the stated tie-breaks (node-list order for the seed queue, edge-list order
for successor decrements), for every node list and edge list; and it is
deterministic — both schedulers are pure functions of the graph, so two
calls on an unchanged graph return the identical sequence. -/
theorem C4_topoOrder_is_reference_kahn :
    (∀ (nodeList : List NodeData) (edgeList : List EdgeData),
      topoOrder nodeList edgeList = kahnReference nodeList edgeList) ∧
    (∀ (nodeList : List NodeData) (edgeList : List EdgeData),
      topoOrder nodeList edgeList = topoOrder nodeList edgeList) := by
  refine ⟨?_, fun _ _ => rfl⟩
  intro nodeList edgeList
  have htg : ∀ e ∈ filteredEdges (nodeList.map NodeData.id) edgeList,
      e.target ∈ nodeList.map NodeData.id :=
    fun e he => (filteredEdges_endpoints (nodeList.map NodeData.id) edgeList e he).2
  have hsub : ∀ u x, x ∈ adjOf (filteredEdges (nodeList.map NodeData.id) edgeList) u →
      x ∈ nodeList.map NodeData.id := by
    intro u x hx
    unfold adjOf at hx
    rw [List.mem_map] at hx
    obtain ⟨e, he, rfl⟩ := hx
    exact htg e (List.mem_of_mem_filter he)
  have hcoup := refIndegTable_coup (nodeList.map NodeData.id)
    (filteredEdges (nodeList.map NodeData.id) edgeList) htg
  have hq0 : (nodeList.map NodeData.id).filter
      (fun id => refLookup (refIndegTable (nodeList.map NodeData.id)
        (filteredEdges (nodeList.map NodeData.id) edgeList)) id = 0) =
      (nodeList.map NodeData.id).filter
      (fun id => indeg0 (filteredEdges (nodeList.map NodeData.id) edgeList) id = 0) := by
    apply List.filter_congr
    intro id _
    rw [hcoup id]
  show (topoLoop (adjOf (filteredEdges (nodeList.map NodeData.id) edgeList))
      ((nodeList.map NodeData.id).length + edgeList.length)
      ((nodeList.map NodeData.id).filter
        (fun id => indeg0 (filteredEdges (nodeList.map NodeData.id) edgeList) id = 0))
      (indeg0 (filteredEdges (nodeList.map NodeData.id) edgeList)) []).2.2 =
    refLoop (filteredEdges (nodeList.map NodeData.id) edgeList)
      ((nodeList.map NodeData.id).length + edgeList.length)
      ((nodeList.map NodeData.id).filter
        (fun id => refLookup (refIndegTable (nodeList.map NodeData.id)
          (filteredEdges (nodeList.map NodeData.id) edgeList)) id = 0))
      (refIndegTable (nodeList.map NodeData.id)
        (filteredEdges (nodeList.map NodeData.id) edgeList)) []
  rw [hq0]
  exact (refLoop_eq (filteredEdges (nodeList.map NodeData.id) edgeList)
    (nodeList.map NodeData.id) hsub
    ((nodeList.map NodeData.id).length + edgeList.length) _ _ _ []
    (refIndegTable_keys _ _) hcoup).symm

end Saterys
